import Mathlib

/-!
# Verification of the Shiiba Blender add-on point-cloud core

Shallow embedding of the point-cloud codec, LRU frame cache, playback
transform and downsampler of this repository:

* `PLYLoader.load_ply_binary`  (src/ply_timeline_addon.py)
* `PLYFrameHandler.__call__` / `update_mesh`  (src/ply_timeline_addon.py)
* `downsample_ply` / `write_ply`  (src/render_addon.py and
  src/json_render_addon.py)

Files are modelled as lists of bytes (`List Nat`, each < 256 where it
matters).  Python `f.readline()` on a binary file splits on byte 10, so a
file is decomposed into lines by `toLines`.  Python floats are modelled as
exact rationals (`ℚ`); the arithmetic the claims exercise (multiplication
by 20, negation, division by 255, comparison with 1) is exact on the
values involved.  Randomness (`random.sample`) is modelled by passing the
drawn index list as an explicit argument, constrained in theorems by the
contract `random.sample` guarantees (distinct indices in range).
-/

namespace Shiiba

/-! ## Byte and character utilities -/

/-- The whitespace bytes stripped by Python `bytes.strip()` (ASCII range). -/
def isSpaceByte (b : Nat) : Bool :=
  b == 9 || b == 10 || b == 11 || b == 12 || b == 13 || b == 32

/-- The whitespace characters stripped by Python `str.strip()` (ASCII range;
the headers in play are ASCII-decoded first). -/
def isSpaceChar (c : Char) : Bool :=
  isSpaceByte c.toNat

/-- Python `strip()` on a character list: drop whitespace from both ends. -/
def stripChars (l : List Char) : List Char :=
  ((l.dropWhile isSpaceChar).reverse.dropWhile isSpaceChar).reverse

/-- Python `strip()` on a byte string. -/
def stripBytes (l : List Nat) : List Nat :=
  ((l.dropWhile isSpaceByte).reverse.dropWhile isSpaceByte).reverse

/-- Bytes of an ASCII string literal (used to model the `b'...'` literals
and `.encode('ascii')` in the source). -/
def strBytes (s : String) : List Nat :=
  s.data.map Char.toNat

/-- Python `bytes.startswith` / `str.startswith` on lists. -/
def startsWithList {α : Type} [DecidableEq α] : List α → List α → Bool
  | _, [] => true
  | [], _ :: _ => false
  | a :: as, b :: bs => a == b && startsWithList as bs

/-- `line.startswith(pre)` for decoded strings. -/
def startsWithStr (s pre : String) : Bool :=
  startsWithList s.data pre.data

/-- `.decode('ascii')`: fails (raises, here `none`) on any byte ≥ 128.
The source decodes comment lines with `.decode('utf-8')`; this model
covers the ASCII subset and treats non-ASCII bytes as a decode failure. -/
def decodeAscii? (l : List Nat) : Option (List Char) :=
  if l.all (· < 128) then some (l.map Char.ofNat) else none

/-- Python `str.split()` (whitespace split, empty fields dropped),
written with an explicit current-word accumulator so it is structural. -/
def splitWsAcc (cur : List Char) : List Char → List (List Char)
  | [] => if cur.isEmpty then [] else [cur.reverse]
  | c :: cs =>
    if isSpaceChar c then
      if cur.isEmpty then splitWsAcc [] cs else cur.reverse :: splitWsAcc [] cs
    else splitWsAcc (c :: cur) cs

/-- Python `s.split()` on a string. -/
def splitWsStr (s : String) : List String :=
  (splitWsAcc [] s.data).map String.mk

/-- Decimal digit value of a character, if it is `'0'..'9'`. -/
def digitVal? (c : Char) : Option Nat :=
  if 48 ≤ c.toNat ∧ c.toNat ≤ 57 then some (c.toNat - 48) else none

/-- Value of a nonempty all-digit character list. -/
def digitsVal? : List Char → Option Nat
  | [] => none
  | [c] => digitVal? c
  | c :: cs => do
    let d ← digitVal? c
    let r ← digitsVal? cs
    pure (d * 10 ^ cs.length + r)

/-- Python `int(s)` on an already-stripped token: optional sign followed by
decimal digits (underscore digit grouping is not modelled). -/
def parsePyInt? (s : String) : Option Int :=
  match s.data with
  | [] => none
  | c :: cs =>
    if c = '-' then (digitsVal? cs).map (fun n => -(n : Int))
    else if c = '+' then (digitsVal? cs).map (fun n => (n : Int))
    else (digitsVal? (c :: cs)).map (fun n => (n : Int))

/-- Python `float(s)` on a stripped token, modelled over exact rationals:
optional sign, decimal mantissa with optional fraction, optional decimal
exponent.  (`inf`/`nan` and underscore grouping are not modelled.) -/
def parsePyFloat? (s : String) : Option ℚ :=
  let sign : ℚ × List Char :=
    match s.data with
    | '-' :: ds => (-1, ds)
    | '+' :: ds => (1, ds)
    | ds => (1, ds)
  let intPart := sign.2.takeWhile (fun c => (digitVal? c).isSome)
  let rest0 := sign.2.dropWhile (fun c => (digitVal? c).isSome)
  let fracPart :=
    match rest0 with
    | '.' :: t => some (t.takeWhile (fun c => (digitVal? c).isSome),
                        t.dropWhile (fun c => (digitVal? c).isSome))
    | _ => none
  let rest1 := match fracPart with | some (_, t) => t | none => rest0
  let expo : Option (Int × List Char) :=
    match rest1 with
    | 'e' :: t | 'E' :: t =>
      match t with
      | '-' :: u => ((digitsVal? (u.takeWhile (fun c => (digitVal? c).isSome))).map
          (fun n => (-(n : Int), u.dropWhile (fun c => (digitVal? c).isSome))))
      | '+' :: u => ((digitsVal? (u.takeWhile (fun c => (digitVal? c).isSome))).map
          (fun n => ((n : Int), u.dropWhile (fun c => (digitVal? c).isSome))))
      | u => ((digitsVal? (u.takeWhile (fun c => (digitVal? c).isSome))).map
          (fun n => ((n : Int), u.dropWhile (fun c => (digitVal? c).isSome))))
    | _ => none
  let rest2 : List Char := match expo with | some (_, t) => t | none => rest1
  let digitsOk : Bool :=
    match fracPart with
    | some (f, _) => !(intPart.isEmpty && f.isEmpty)
    | none => !intPart.isEmpty
  let expOk : Bool := match rest1, expo with
    | 'e' :: _, none => false
    | 'E' :: _, none => false
    | _, _ => true
  if digitsOk && expOk && rest2.isEmpty then
    let mant : ℚ := (intPart.foldl (fun a c => a * 10 + ((digitVal? c).getD 0)) 0 : Nat)
    let frac : ℚ :=
      match fracPart with
      | some (f, _) => ((f.foldl (fun a c => a * 10 + ((digitVal? c).getD 0)) 0 : Nat) : ℚ)
          / (10 : ℚ) ^ f.length
      | none => 0
    let e : Int := match expo with | some (n, _) => n | none => 0
    some (sign.1 * (mant + frac) * (10 : ℚ) ^ (e : Int))
  else
    none

/-- Decimal digits of a natural number, least significant first. -/
def natDigitsRev (n : Nat) : List Nat :=
  if h : n < 10 then [n] else n % 10 :: natDigitsRev (n / 10)
decreasing_by exact Nat.div_lt_self (Nat.lt_of_lt_of_le (by omega) (Nat.le_of_not_lt h)) (by omega)

/-- Decimal representation of a natural number, as characters (models
Python's `f'{count}'` formatting of an `int`). -/
def natChars (n : Nat) : List Char :=
  (natDigitsRev n).reverse.map (fun d => Char.ofNat (48 + d))

/-- Decimal representation of an integer. -/
def intChars (i : Int) : List Char :=
  if i < 0 then '-' :: natChars i.natAbs else natChars i.toNat

/-- `f.readline()` decomposition of a binary file: split after every byte
10 (newline); a final chunk without newline is kept; at end of file
`readline` returns `b''` forever, which is why the decomposition is
finite. -/
def toLines : List Nat → List (List Nat)
  | [] => []
  | b :: rest =>
    if b = 10 then [10] :: toLines rest
    else
      match toLines rest with
      | [] => [[b]]
      | l :: ls => (b :: l) :: ls

/-- Complete 27-byte records of a byte string; a trailing partial record is
dropped, exactly as `np.fromfile` does for a fixed 27-byte dtype.  Fuel is
the list length, which is always sufficient. -/
def chunks27Fuel : Nat → List Nat → List (List Nat)
  | 0, _ => []
  | fuel + 1, l => if 27 ≤ l.length then l.take 27 :: chunks27Fuel fuel (l.drop 27) else []

/-- The records of a binary body. -/
def chunks27 (l : List Nat) : List (List Nat) :=
  chunks27Fuel l.length l

/-- Python `f.read(n)` at a position: `n < 0` reads to end of file. -/
def readAt (file : List Nat) (pos : Nat) (n : Int) : List Nat :=
  if n < 0 then file.drop pos else (file.drop pos).take n.toNat

/-- Mathematical floor of a rational, computably (`Int` division is
Euclidean, hence floors for the positive denominator). -/
def ratFloor (q : ℚ) : Int := q.num / (q.den : Int)

/-- Python `int()` applied to a float value: truncation toward zero. -/
def pyTrunc (q : ℚ) : Int :=
  if q < 0 then -ratFloor (-q) else ratFloor q

/-- Split a character list at the first occurrence of a (nonempty) separator:
`some (before, after)` with the separator removed, `none` when the separator
does not occur.  Together these model Python's `sep in s` test and
`s.split(sep)[1]` (the chunk between the first and second occurrence). -/
def splitFirst? (sep : List Char) : List Char → Option (List Char × List Char)
  | [] => if sep.isEmpty then some ([], []) else none
  | c :: cs =>
    if startsWithList (c :: cs) sep then some ([], (c :: cs).drop sep.length)
    else
      match splitFirst? sep cs with
      | some (pre, post) => some (c :: pre, post)
      | none => none

/-- Python `s.split(sep)[1]`: the text between the first occurrence of `sep`
and the next occurrence (or the end).  Only meaningful when `sep in s`. -/
def splitSecondField (sep : List Char) (afterFirst : List Char) : List Char :=
  match splitFirst? sep afterFirst with
  | some (pre, _) => pre
  | none => afterFirst

/-! ## PLYLoader (src/ply_timeline_addon.py) -/

/-- The metadata dict built by `PLYLoader.load_ply_binary`; the three
recognized keys, each absent until its comment marker parses. -/
structure Metadata where
  torso_position : Option (ℚ × ℚ × ℚ) := none
  pointcloud_frame : Option Int := none
  bvh_frame : Option Int := none
  deriving DecidableEq

/-- Outcome of the header loop of `load_ply_binary`: `hangs` when
`end_header` never appears (the `while` loop then spins on `b''` at EOF),
`excn` when a comment line fails to decode (caught by the outer `except`),
`done` with the byte offset after the `end_header` line and the metadata. -/
inductive TLScan where
  | hangs
  | excn
  | done (headerEnd : Nat) (md : Metadata)
  deriving DecidableEq

/-- One iteration of the comment-metadata parsing in `load_ply_binary`
(lines 46-76): comment lines are decoded and scanned for the three
recognized markers with an `elif` chain; numeric parse failures are
swallowed (`except ValueError: pass`), decode failures raise (`none`). -/
def parseCommentTL (line : List Nat) (md : Metadata) : Option Metadata :=
  if startsWithList line (strBytes "comment") then
    match decodeAscii? line with
    | none => none
    | some raw =>
      let comment := stripChars raw
      match splitFirst? "torso_7_global_position:".data comment with
      | some (_, post) =>
        let parts := splitWsAcc []
          (stripChars (splitSecondField "torso_7_global_position:".data post))
        some (if h : parts.length = 3 then
          match parsePyFloat? ⟨parts[0]⟩, parsePyFloat? ⟨parts[1]⟩,
              parsePyFloat? ⟨parts[2]⟩ with
          | some a, some b, some c => { md with torso_position := some (a, b, c) }
          | _, _, _ => md
        else md)
      | none =>
        match splitFirst? "PointCloudFrame:".data comment with
        | some (_, post) =>
          some (match parsePyInt? ⟨stripChars
              (splitSecondField "PointCloudFrame:".data post)⟩ with
            | some n => { md with pointcloud_frame := some n }
            | none => md)
        | none =>
          match splitFirst? "BvhFrame:".data comment with
          | some (_, post) =>
            some (match parsePyInt? ⟨stripChars
                (splitSecondField "BvhFrame:".data post)⟩ with
              | some n => { md with bvh_frame := some n }
              | none => md)
          | none => some md
  else some md

/-- The header loop of `load_ply_binary` over the `readline` decomposition:
reads a line, parses comment metadata, stops after the line whose stripped
content is `end_header`.  When the lines run out, `readline` returns `b''`
forever and the loop never terminates. -/
def scanTLLines : List (List Nat) → Nat → Metadata → TLScan
  | [], _, _ => .hangs
  | line :: rest, pos, md =>
    match parseCommentTL line md with
    | none => .excn
    | some md' =>
      if stripBytes line = strBytes "end_header" then .done (pos + line.length) md'
      else scanTLLines rest (pos + line.length) md'

/-- Header scan of a whole file, from position 0 with empty metadata. -/
def scanTL (file : List Nat) : TLScan := scanTLLines (toLines file) 0 {}

/-- Result of `PLYLoader.load_ply_binary`: `absent` and `errored` are the
`(None, None)` returns, `hangs` the nonterminating header loop. -/
inductive DecodeResult where
  | absent
  | hangs
  | errored
  | ok (records : List (List Nat)) (md : Metadata)
  deriving DecidableEq

namespace PLYLoader

/-- `PLYLoader.load_ply_binary` (src/ply_timeline_addon.py lines 26-96):
if the file is absent return `(None, None)`; scan the header for
`end_header` collecting comment metadata; then read the whole remaining
file as 27-byte records (`np.fromfile` keeps every complete record and
drops a trailing partial one).  The input is `none` when
`os.path.exists` fails. -/
def load_ply_binary : Option (List Nat) → DecodeResult
  | none => .absent
  | some file =>
    match scanTL file with
    | .hangs => .hangs
    | .excn => .errored
    | .done headerEnd md => .ok (chunks27 (file.drop headerEnd)) md

end PLYLoader

/-! ## Header scan of `downsample_ply`

The header-parsing loop below appears character-for-character identically
in src/render_addon.py (lines 483-501) and src/json_render_addon.py
(lines 110-128), so it is modelled once: read a line, `decode('ascii')`
(failure raises, caught by the generic `except` → `excn`), `strip()`,
append to `header_lines`; on a line starting with `element vertex` set
`vertex_count = int(line.split()[-1])` (parse failure raises → `excn`);
stop after the line equal to `end_header`.  With no such line the loop
spins forever on `b''` at EOF. -/

inductive DSScan where
  | hangs
  | excn
  | done (headerEnd : Nat) (header_lines : List String) (vertex_count : Int)
  deriving DecidableEq

/-- The shared `downsample_ply` header loop over the line decomposition. -/
def scanDSLines : List (List Nat) → Nat → List String → Int → DSScan
  | [], _, _, _ => .hangs
  | line :: rest, pos, acc, vc =>
    match decodeAscii? line with
    | none => .excn
    | some raw =>
      let s : String := ⟨stripChars raw⟩
      if startsWithStr s "element vertex" then
        match (splitWsStr s).getLast? with
        | none => .excn
        | some tok =>
          match parsePyInt? tok with
          | none => .excn
          | some n =>
            if s = "end_header" then .done (pos + line.length) (acc ++ [s]) n
            else scanDSLines rest (pos + line.length) (acc ++ [s]) n
      else
        if s = "end_header" then .done (pos + line.length) (acc ++ [s]) vc
        else scanDSLines rest (pos + line.length) (acc ++ [s]) vc

/-- Header scan of a whole file for `downsample_ply`. -/
def scanDS (file : List Nat) : DSScan := scanDSLines (toLines file) 0 [] 0

/-- Result of `downsample_ply`: the error constructors are the
`(False, message)` returns (file absent / `vertex_count == 0` / a caught
exception), `hangs` the nonterminating header loop, and `ok` a
`(True, message)` return carrying the written destination bytes and
whether the copy-path message (`PLY copied ...`) was produced. -/
inductive DSOut where
  | hangs
  | errNotFound
  | errNoVertices
  | errExc
  | ok (outFile : List Nat) (copied : Bool)
  deriving DecidableEq

/-- Success flag of the `(success, message)` pair. -/
def DSOut.success : DSOut → Bool
  | .ok _ _ => true
  | _ => false

namespace RenderAddon

/-- `write_ply` (src/render_addon.py lines 536-550): write each header line
followed by a newline, rewriting every `element vertex` line with the new
count, then append the body bytes unmodified.  (The identical function
also appears in src/json_render_addon.py lines 175-188.) -/
def write_ply (header_lines : List String) (vertex_count : Int)
    (vertex_data : List Nat) : List Nat :=
  (header_lines.map (fun line =>
    if startsWithStr line "element vertex" then
      strBytes ("element vertex " ++ String.mk (intChars vertex_count) ++ "\n")
    else if line = "end_header" then strBytes "end_header\n"
    else strBytes (line ++ "\n"))).flatten ++ vertex_data

/-- `downsample_ply` (src/render_addon.py lines 479-533).  `rawSample`
stands for the value of `random.sample(range(vertex_count), keep_count)`;
the function sorts it and reads one 27-byte record per index.  The copy
path runs when `ratio >= 1.0 or keep_count == vertex_count` and reads
exactly `vertex_count * 27` body bytes. -/
def downsample_ply (file? : Option (List Nat)) (ratio : ℚ)
    (rawSample : List Nat) : DSOut :=
  match file? with
  | none => .errNotFound
  | some file =>
    match scanDS file with
    | .hangs => .hangs
    | .excn => .errExc
    | .done header_end_pos header_lines vertex_count =>
      if vertex_count = 0 then .errNoVertices
      else
        let keep_count : Int := max 1 (pyTrunc ((vertex_count : ℚ) * ratio))
        if 1 ≤ ratio ∨ keep_count = vertex_count then
          let vertex_data := readAt file header_end_pos (vertex_count * 27)
          .ok (write_ply header_lines vertex_count vertex_data) true
        else
          let selected_indices := List.insertionSort (· ≤ ·) rawSample
          let sampled_vertices := (selected_indices.map (fun idx =>
            (file.drop (header_end_pos + idx * 27)).take 27)).flatten
          .ok (write_ply header_lines keep_count sampled_vertices) false

end RenderAddon

namespace JsonRenderAddon

/-- `write_ply` (src/json_render_addon.py lines 175-188), identical to the
render_addon version. -/
def write_ply (header_lines : List String) (vertex_count : Int)
    (vertex_data : List Nat) : List Nat :=
  (header_lines.map (fun line =>
    if startsWithStr line "element vertex" then
      strBytes ("element vertex " ++ String.mk (intChars vertex_count) ++ "\n")
    else if line = "end_header" then strBytes "end_header\n"
    else strBytes (line ++ "\n"))).flatten ++ vertex_data

/-- `downsample_ply` (src/json_render_addon.py lines 106-172).  Differs
from the render_addon version in three ways: the copy-path guard is
`keep_count >= vertex_count`, the copy path reads the whole rest of the
file (`f.read()`), and the per-record stride is
`bytes_per_vertex = (file_size - header_end_pos) // vertex_count`
(Python floor division). -/
def downsample_ply (file? : Option (List Nat)) (ratio : ℚ)
    (rawSample : List Nat) : DSOut :=
  match file? with
  | none => .errNotFound
  | some file =>
    match scanDS file with
    | .hangs => .hangs
    | .excn => .errExc
    | .done header_end_pos header_lines vertex_count =>
      if vertex_count = 0 then .errNoVertices
      else
        let keep_count : Int := max 1 (pyTrunc ((vertex_count : ℚ) * ratio))
        if 1 ≤ ratio ∨ vertex_count ≤ keep_count then
          let vertex_data := file.drop header_end_pos
          .ok (write_ply header_lines vertex_count vertex_data) true
        else
          let bytes_per_vertex : Int :=
            Int.fdiv ((file.length : Int) - (header_end_pos : Int)) vertex_count
          let selected_indices := List.insertionSort (· ≤ ·) rawSample
          let sampled_vertices := (selected_indices.map (fun (idx : Nat) =>
            (file.drop ((header_end_pos : Int)
              + (idx : Int) * bytes_per_vertex).toNat).take
              bytes_per_vertex.toNat)).flatten
          .ok (write_ply header_lines keep_count sampled_vertices) false

end JsonRenderAddon

/-! ## PLYFrameHandler (src/ply_timeline_addon.py lines 100-244) -/

/-- A cache entry: the decoded records and the metadata,
`(ply_data, metadata)` in the source. -/
abbrev PlyEntry := List (List Nat) × Metadata

/-- Mutable state of a `PLYFrameHandler`: the `OrderedDict` cache (least
recently used first, exactly the insertion/`move_to_end` order),
`current_loaded_frame`, and the two hide flags of the consumer object. -/
structure HandlerState where
  cache : List (Int × PlyEntry)
  currentLoadedFrame : Option Int
  hideViewport : Bool
  hideRender : Bool
  deriving DecidableEq

/-- What one `__call__` did (print statements / early returns). -/
inductive StepSignal where
  | alreadyLoaded
  | noFrame
  | loadFailed
  | shown
  deriving DecidableEq

namespace PLYFrameHandler

/-- The state as constructed by `PLYFrameHandler.__init__`:
empty `OrderedDict`, `current_loaded_frame = None`; the object's hide
flags are whatever they were (`hv`, `hr`). -/
def initState (hv hr : Bool) : HandlerState :=
  { cache := [], currentLoadedFrame := none, hideViewport := hv, hideRender := hr }

/-- `PLYFrameHandler.__call__` (lines 122-199), for a valid handler:
skip when the frame is already loaded; hide the object when the frame is
not in `frame_map`; otherwise serve from the cache (`move_to_end`) or
load from file — a failed load (`ply_data is None`) sets
`hide_viewport` and returns, a successful one is inserted as most recent
and the oldest entry is evicted (`popitem(last=False)`) if the cache has
overfilled.  `frameMap` models the `frame_map` dict and `loadFn` the
completed result of `PLYLoader.load_ply_binary` on a path. -/
def step (frameMap : Int → Option String) (loadFn : String → Option PlyEntry)
    (cacheSize : Nat) (st : HandlerState) (currentFrame : Int) :
    HandlerState × StepSignal :=
  if st.currentLoadedFrame = some currentFrame then (st, .alreadyLoaded)
  else
    match frameMap currentFrame with
    | none => ({ st with hideViewport := true, hideRender := true }, .noFrame)
    | some path =>
      match st.cache.find? (fun q => decide (q.1 = currentFrame)) with
      | some entry =>
        let moved := st.cache.filter (fun q => decide (q.1 ≠ currentFrame))
        ({ cache := moved ++ [(currentFrame, entry.2)],
           currentLoadedFrame := some currentFrame,
           hideViewport := false, hideRender := false }, .shown)
      | none =>
        match loadFn path with
        | none => ({ st with hideViewport := true }, .loadFailed)
        | some e =>
          let c1 := st.cache ++ [(currentFrame, e)]
          let c2 := if cacheSize < c1.length then c1.tail else c1
          ({ cache := c2, currentLoadedFrame := some currentFrame,
             hideViewport := false, hideRender := false }, .shown)

/-- A sequence of frame-change callbacks. -/
def run (frameMap : Int → Option String) (loadFn : String → Option PlyEntry)
    (cacheSize : Nat) (st : HandlerState) (reqs : List Int) : HandlerState :=
  reqs.foldl (fun s f => (step frameMap loadFn cacheSize s f).1) st

/-- A decoded vertex record as the structured numpy array exposes it:
three float32 positions, three uint8 colors, three float32 velocities
(floats modelled as exact rationals). -/
structure RecordQ where
  x : ℚ
  y : ℚ
  z : ℚ
  red : Fin 256
  green : Fin 256
  blue : Fin 256
  vx : ℚ
  vy : ℚ
  vz : ℚ
  deriving DecidableEq

/-- What `update_mesh` hands to Blender: the rebuilt positions, the
`FLOAT_COLOR` attribute rows, and the three velocity attributes. -/
structure MeshUpdate where
  positions : List (ℚ × ℚ × ℚ)
  colors : List (ℚ × ℚ × ℚ × ℚ)
  velX : List ℚ
  velY : List ℚ
  velZ : List ℚ
  deriving DecidableEq

/-- `PLYFrameHandler.update_mesh` (lines 201-244): positions are
`np.stack([x*20, -z*20, y*20], axis=1)`, colors
`np.stack([r/255, g/255, b/255, ones], axis=1)`, velocities the arrays
`vx`, `-vz`, `vy` (rotation only, no scale). -/
def update_mesh (data : List RecordQ) : MeshUpdate :=
  { positions := List.zipWith3 (fun a b c => (a, b, c))
      (data.map (fun r => r.x * 20))
      (data.map (fun r => -r.z * 20))
      (data.map (fun r => r.y * 20))
    colors := List.zipWith (fun t a => (t.1, t.2.1, t.2.2, a))
      (List.zipWith3 (fun a b c => (a, b, c))
        (data.map (fun r => ((r.red : ℚ)) / 255))
        (data.map (fun r => ((r.green : ℚ)) / 255))
        (data.map (fun r => ((r.blue : ℚ)) / 255)))
      (List.replicate data.length (1 : ℚ))
    velX := data.map (fun r => r.vx)
    velY := data.map (fun r => -r.vz)
    velZ := data.map (fun r => r.vy) }

/-- The camera-target update in `__call__` (lines 176-188): when a camera
target exists and the metadata carries `torso_position`, its location
becomes `(x*20, -z*20, y*20)`; otherwise the location is untouched
(`none`). -/
def cameraTargetLocation (hasTarget : Bool) (md : Metadata) :
    Option (ℚ × ℚ × ℚ) :=
  if hasTarget then
    match md.torso_position with
    | some (x, y, z) => some (x * 20, -z * 20, y * 20)
    | none => none
  else none

end PLYFrameHandler

/-- Modelled from the spec: `Codec.encode` takes an optional
`extra_comment` and, when supplied, "inserts it as a new comment line
immediately before `end_header`"; the `write_ply` functions in src take no
such argument, so the insertion step is missing from src and is modelled
from the spec's words here. -/
def insertExtraComment : List String → String → List String
  | [], _ => []
  | l :: ls, c =>
    if l = "end_header" then ("comment " ++ c) :: l :: ls
    else l :: insertExtraComment ls c

/-- Modelled from the spec: `Codec.encode(path, header_lines, vertex_count,
raw_bytes, extra_comment?)`.  With no `extra_comment` this is exactly
`write_ply` from src/render_addon.py; with one it first inserts the
comment line immediately before `end_header`. -/
def encode (header_lines : List String) (vertex_count : Int)
    (raw_bytes : List Nat) (extra_comment : Option String) : List Nat :=
  match extra_comment with
  | none => RenderAddon.write_ply header_lines vertex_count raw_bytes
  | some c =>
    RenderAddon.write_ply (insertExtraComment header_lines c) vertex_count raw_bytes

/-! ## General list helpers -/

theorem zipWith3_map_same {α β : Type} (g : β → β → β → β × β × β)
    (f1 f2 f3 : α → β) (l : List α) :
    List.zipWith3 g (l.map f1) (l.map f2) (l.map f3)
      = l.map (fun r => g (f1 r) (f2 r) (f3 r)) := by
  induction l with
  | nil => rfl
  | cons a t ih => simp [List.zipWith3, ih]

theorem zipWith_map_replicate {α β γ δ : Type} (h : γ → β → δ) (f : α → γ)
    (l : List α) (a : β) :
    List.zipWith h (l.map f) (List.replicate l.length a)
      = l.map (fun r => h (f r) a) := by
  induction l with
  | nil => rfl
  | cons x t ih => simp [List.replicate, ih]

theorem key_nodup_eq {α β : Type} {l : List (α × β)} {p q : α × β}
    (hnd : (l.map Prod.fst).Nodup) (hp : p ∈ l) (hq : q ∈ l)
    (hk : p.1 = q.1) : p = q := by
  induction l with
  | nil => cases hp
  | cons a t ih =>
    simp only [List.map_cons, List.nodup_cons] at hnd
    rcases List.mem_cons.mp hp with rfl | hp' <;>
      rcases List.mem_cons.mp hq with rfl | hq'
    · rfl
    · exact absurd (hk ▸ List.mem_map_of_mem Prod.fst hq') hnd.1
    · exact absurd (hk ▸ List.mem_map_of_mem Prod.fst hp') hnd.1
    · exact ih hnd.2 hp' hq'

/-! ## C9: a frame absent from the frame index -/

/-- **C9.** When the requested frame has no entry in `frame_map` (and is not
the already-loaded frame, so the lookup is reached), `__call__` signals the
no-frame case by hiding the consumer object, returns without raising, and
leaves the cache, every cache entry and `current_loaded_frame` untouched. -/
theorem C9_missing_frame (frameMap : Int → Option String)
    (loadFn : String → Option PlyEntry) (cacheSize : Nat)
    (st : HandlerState) (f : Int)
    (hcur : st.currentLoadedFrame ≠ some f)
    (hmap : frameMap f = none) :
    (PLYFrameHandler.step frameMap loadFn cacheSize st f).1.cache = st.cache ∧
    (PLYFrameHandler.step frameMap loadFn cacheSize st f).1.currentLoadedFrame
      = st.currentLoadedFrame ∧
    (PLYFrameHandler.step frameMap loadFn cacheSize st f).1.hideViewport = true ∧
    (PLYFrameHandler.step frameMap loadFn cacheSize st f).1.hideRender = true ∧
    (PLYFrameHandler.step frameMap loadFn cacheSize st f).2 = .noFrame := by
  simp [PLYFrameHandler.step, hcur, hmap]

/-- Witness for C9 at a concrete empty index and frame 42. -/
theorem C9_missing_frame_witness :
    ((PLYFrameHandler.initState false false).currentLoadedFrame ≠ some 42) ∧
    ((fun _ => none : Int → Option String) 42 = none) ∧
    (PLYFrameHandler.step (fun _ => none) (fun _ => none) 10
      (PLYFrameHandler.initState false false) 42).2 = .noFrame := by
  refine ⟨by simp [PLYFrameHandler.initState], rfl, ?_⟩
  exact (C9_missing_frame (fun _ => none) (fun _ => none) 10
    (PLYFrameHandler.initState false false) 42
    (by simp [PLYFrameHandler.initState]) rfl).2.2.2.2

/-! ## C7: LRU hit and eviction behaviour -/

theorem filter_ne_key_length {l : List (Int × PlyEntry)} {e : Int × PlyEntry}
    (hnd : (l.map Prod.fst).Nodup) (he : e ∈ l) :
    (l.filter (fun q => decide (q.1 ≠ e.1))).length + 1 = l.length := by
  induction l with
  | nil => cases he
  | cons a t ih =>
    simp only [List.map_cons, List.nodup_cons] at hnd
    rw [List.filter_cons]
    by_cases hae : a.1 = e.1
    · rw [if_neg (by simp [hae])]
      have ht : t.filter (fun q => decide (q.1 ≠ e.1)) = t := by
        apply List.filter_eq_self.mpr
        intro q hq
        simp only [decide_eq_true_eq]
        intro h
        exact hnd.1 (hae ▸ h ▸ List.mem_map_of_mem Prod.fst hq)
      rw [ht, List.length_cons]
    · rw [if_pos (by simp [hae])]
      have het : e ∈ t := by
        rcases List.mem_cons.mp he with rfl | h
        · exact absurd rfl hae
        · exact h
      have hih := ih hnd.2 het
      simp only [List.length_cons]
      omega

/-- **C7.** (a) Serving a frame already in the cache evicts nothing: the
cache keeps its size, every existing entry survives, and the accessed
entry is moved to the most-recently-used (last) position.  (b) When a miss
overfills the cache, the evicted entry is the head of the order — the
least-recently-used — whose key differs from the just-accessed frame, and
the rest of the cache shifts down with the new entry appended as most
recent. -/
theorem C7_lru_policy :
    (∀ (frameMap : Int → Option String) (loadFn : String → Option PlyEntry)
      (cacheSize : Nat) (st : HandlerState) (f : Int) (path : String)
      (entry : Int × PlyEntry),
      st.currentLoadedFrame ≠ some f →
      frameMap f = some path →
      st.cache.find? (fun q => decide (q.1 = f)) = some entry →
      (st.cache.map Prod.fst).Nodup →
      (PLYFrameHandler.step frameMap loadFn cacheSize st f).1.cache.length
          = st.cache.length ∧
      (PLYFrameHandler.step frameMap loadFn cacheSize st f).1.cache.getLast?
          = some (f, entry.2) ∧
      (∀ q ∈ st.cache,
        q ∈ (PLYFrameHandler.step frameMap loadFn cacheSize st f).1.cache)) ∧
    (∀ (frameMap : Int → Option String) (loadFn : String → Option PlyEntry)
      (cacheSize : Nat) (st : HandlerState) (f : Int) (path : String)
      (e : PlyEntry),
      st.currentLoadedFrame ≠ some f →
      frameMap f = some path →
      st.cache.find? (fun q => decide (q.1 = f)) = none →
      loadFn path = some e →
      1 ≤ cacheSize →
      cacheSize < st.cache.length + 1 →
      ∃ lru rest, st.cache = lru :: rest ∧
        (PLYFrameHandler.step frameMap loadFn cacheSize st f).1.cache
          = rest ++ [(f, e)] ∧
        lru.1 ≠ f) := by
  constructor
  · intro frameMap loadFn cacheSize st f path entry hcur hpath hfind hnd
    have hmem : entry ∈ st.cache := List.mem_of_find?_eq_some hfind
    have hkey : entry.1 = f := by
      have := List.find?_some hfind
      simpa using this
    simp only [PLYFrameHandler.step, if_neg hcur, hpath, hfind]
    refine ⟨?_, ?_, ?_⟩
    · have hlen := filter_ne_key_length hnd hmem
      rw [hkey] at hlen
      simp only [List.length_append, List.length_cons, List.length_nil]
      omega
    · simp
    · intro q hq
      by_cases hqf : q.1 = f
      · have hqe : q = entry := key_nodup_eq hnd hq hmem (hqf.trans hkey.symm)
        subst hqe
        have h2 : ((f, q.2) : Int × PlyEntry) = q := by
          rw [← hqf]
        rw [h2]
        simp
      · apply List.mem_append_left
        simp [List.mem_filter, hq, hqf]
  · intro frameMap loadFn cacheSize st f path e hcur hpath hfind hload h1 hover
    have hnonempty : st.cache ≠ [] := by
      intro h
      rw [h] at hover
      simp at hover
      omega
    obtain ⟨lru, rest, hlr⟩ : ∃ a t, st.cache = a :: t := by
      cases hc : st.cache with
      | nil => exact absurd hc hnonempty
      | cons a t => exact ⟨a, t, rfl⟩
    refine ⟨lru, rest, hlr, ?_, ?_⟩
    · simp only [PLYFrameHandler.step, if_neg hcur, hpath, hfind, hload]
      rw [hlr]
      have : cacheSize < ((lru :: rest) ++ [(f, e)]).length := by
        simp only [List.length_append, List.length_cons, List.length_singleton]
        rw [hlr] at hover
        simp only [List.length_cons] at hover
        omega
      simp only [if_pos this]
      rfl
    · have := List.find?_eq_none.mp hfind lru (hlr ▸ List.mem_cons_self lru rest)
      simpa using this

/-- A trivial cache entry used by concrete witnesses. -/
def exEntry : PlyEntry := ([], {})

/-- Concrete two-entry handler state for the cache-hit witness. -/
def exStateHit : HandlerState :=
  { cache := [(1, exEntry), (2, exEntry)], currentLoadedFrame := none,
    hideViewport := false, hideRender := false }

/-- Concrete full one-entry handler state for the eviction witness. -/
def exStateMiss : HandlerState :=
  { cache := [(1, exEntry)], currentLoadedFrame := none,
    hideViewport := false, hideRender := false }

/-- Witness for C7: a concrete hit on frame 1 keeps both entries, and a
concrete miss on frame 2 with capacity 1 evicts the head entry (frame 1),
not the just-accessed frame 2. -/
theorem C7_lru_policy_witness :
    ((PLYFrameHandler.step (fun _ => some "p") (fun _ => some exEntry) 2
        exStateHit 1).1.cache.length = exStateHit.cache.length) ∧
    (∃ lru rest, exStateMiss.cache = lru :: rest ∧
      (PLYFrameHandler.step (fun _ => some "p") (fun _ => some exEntry) 1
        exStateMiss 2).1.cache = rest ++ [(2, exEntry)] ∧ lru.1 ≠ 2) := by
  constructor
  · exact (C7_lru_policy.1 (fun _ => some "p") (fun _ => some exEntry) 2
      exStateHit 1 "p" (1, exEntry) (by decide) rfl (by decide) (by decide)).1
  · exact C7_lru_policy.2 (fun _ => some "p") (fun _ => some exEntry) 1
      exStateMiss 2 "p" exEntry (by decide) rfl (by decide) rfl
      (by decide) (by decide)

/-! ## C8: playback transform -/

/-- **C8.** `update_mesh` maps every decoded position `(x,y,z)` to
`(x*20, -z*20, y*20)`, every velocity `(vx,vy,vz)` to `(vx,-vz,vy)` with
no scale, normalizes every uint8 color channel to `c/255 ∈ [0,1]` (with
alpha 1), and the frame-change callback moves an existing camera target to
the scaled position transform of `torso_position`; concretely position
`(1,2,3)` goes to `(20,-60,40)` and velocity `(1,2,3)` to `(1,-3,2)`. -/
theorem C8_playback_transform :
    (∀ data : List PLYFrameHandler.RecordQ,
      (PLYFrameHandler.update_mesh data).positions
        = data.map (fun r => (r.x * 20, -r.z * 20, r.y * 20))) ∧
    (∀ data : List PLYFrameHandler.RecordQ,
      (PLYFrameHandler.update_mesh data).velX = data.map (fun r => r.vx) ∧
      (PLYFrameHandler.update_mesh data).velY = data.map (fun r => -r.vz) ∧
      (PLYFrameHandler.update_mesh data).velZ = data.map (fun r => r.vy)) ∧
    (∀ data : List PLYFrameHandler.RecordQ,
      (PLYFrameHandler.update_mesh data).colors
        = data.map (fun r =>
            ((r.red : ℚ) / 255, (r.green : ℚ) / 255, (r.blue : ℚ) / 255,
              (1 : ℚ)))) ∧
    (∀ (data : List PLYFrameHandler.RecordQ) (c : ℚ × ℚ × ℚ × ℚ),
      c ∈ (PLYFrameHandler.update_mesh data).colors →
      (0 ≤ c.1 ∧ c.1 ≤ 1) ∧ (0 ≤ c.2.1 ∧ c.2.1 ≤ 1) ∧
        (0 ≤ c.2.2.1 ∧ c.2.2.1 ≤ 1)) ∧
    (∀ (md : Metadata) (x y z : ℚ), md.torso_position = some (x, y, z) →
      PLYFrameHandler.cameraTargetLocation true md
        = some (x * 20, -z * 20, y * 20)) ∧
    ((PLYFrameHandler.update_mesh
        [⟨1, 2, 3, 0, 0, 0, 1, 2, 3⟩]).positions = [(20, -60, 40)] ∧
      (PLYFrameHandler.update_mesh [⟨1, 2, 3, 0, 0, 0, 1, 2, 3⟩]).velX = [1] ∧
      (PLYFrameHandler.update_mesh [⟨1, 2, 3, 0, 0, 0, 1, 2, 3⟩]).velY = [-3] ∧
      (PLYFrameHandler.update_mesh [⟨1, 2, 3, 0, 0, 0, 1, 2, 3⟩]).velZ = [2]) := by
  have hpos : ∀ data : List PLYFrameHandler.RecordQ,
      (PLYFrameHandler.update_mesh data).positions
        = data.map (fun r => (r.x * 20, -r.z * 20, r.y * 20)) := by
    intro data
    simp only [PLYFrameHandler.update_mesh]
    exact zipWith3_map_same _ _ _ _ data
  have hcol : ∀ data : List PLYFrameHandler.RecordQ,
      (PLYFrameHandler.update_mesh data).colors
        = data.map (fun r =>
            ((r.red : ℚ) / 255, (r.green : ℚ) / 255, (r.blue : ℚ) / 255,
              (1 : ℚ))) := by
    intro data
    simp only [PLYFrameHandler.update_mesh]
    rw [zipWith3_map_same (fun a b c => (a, b, c))
      (fun r => ((r.red : ℚ)) / 255) (fun r => ((r.green : ℚ)) / 255)
      (fun r => ((r.blue : ℚ)) / 255) data]
    have := zipWith_map_replicate
      (fun (t : ℚ × ℚ × ℚ) (a : ℚ) => (t.1, t.2.1, t.2.2, a))
      (fun r : PLYFrameHandler.RecordQ =>
        (((r.red : ℚ)) / 255, ((r.green : ℚ)) / 255, ((r.blue : ℚ)) / 255))
      data 1
    rw [this]
  refine ⟨hpos, ?_, hcol, ?_, ?_, ?_⟩
  · intro data
    exact ⟨rfl, rfl, rfl⟩
  · intro data c hc
    rw [hcol data] at hc
    obtain ⟨r, _, rfl⟩ := List.mem_map.mp hc
    have hch : ∀ v : Fin 256, 0 ≤ ((v : ℚ)) / 255 ∧ ((v : ℚ)) / 255 ≤ 1 := by
      intro v
      constructor
      · positivity
      · rw [div_le_one (by norm_num)]
        have : (v : ℕ) ≤ 255 := Nat.le_of_lt_succ v.isLt
        exact_mod_cast this
    exact ⟨hch r.red, hch r.green, hch r.blue⟩
  · intro md x y z h
    simp [PLYFrameHandler.cameraTargetLocation, h]
  · refine ⟨?_, rfl, ?_, ?_⟩
    · rw [hpos]
      norm_num
    · simp [PLYFrameHandler.update_mesh]
    · simp [PLYFrameHandler.update_mesh]

/-- Witness for C8 at a concrete record list and metadata. -/
theorem C8_playback_transform_witness :
    (PLYFrameHandler.update_mesh
        [⟨1, 2, 3, 10, 20, 30, 4, 5, 6⟩]).positions = [(20, -60, 40)] ∧
    PLYFrameHandler.cameraTargetLocation true
        { torso_position := some (1, 2, 3) } = some (20, -60, 40) := by
  constructor
  · rw [C8_playback_transform.1 [⟨1, 2, 3, 10, 20, 30, 4, 5, 6⟩]]
    norm_num
  · have := C8_playback_transform.2.2.2.2.1
      { torso_position := some (1, 2, 3) } 1 2 3 rfl
    rw [this]
    norm_num

/-! ## Record-chunking lemmas -/

theorem chunks27Fuel_congr : ∀ (f1 f2 : Nat) (l : List Nat),
    l.length ≤ f1 → l.length ≤ f2 → chunks27Fuel f1 l = chunks27Fuel f2 l := by
  intro f1
  induction f1 with
  | zero =>
    intro f2 l h1 h2
    have : l.length = 0 := Nat.le_zero.mp h1
    cases f2 with
    | zero => rfl
    | succ m =>
      simp only [chunks27Fuel]
      rw [if_neg (by omega)]
  | succ k ih =>
    intro f2 l h1 h2
    cases f2 with
    | zero =>
      have : l.length = 0 := Nat.le_zero.mp h2
      simp only [chunks27Fuel]
      rw [if_neg (by omega)]
    | succ m =>
      simp only [chunks27Fuel]
      by_cases h27 : 27 ≤ l.length
      · rw [if_pos h27, if_pos h27]
        have hd : (l.drop 27).length = l.length - 27 := List.length_drop 27 l
        rw [ih m (l.drop 27) (by omega) (by omega)]
      · rw [if_neg h27, if_neg h27]

theorem chunks27_step {l : List Nat} (h : 27 ≤ l.length) :
    chunks27 l = l.take 27 :: chunks27 (l.drop 27) := by
  unfold chunks27
  cases hl : l.length with
  | zero => omega
  | succ k =>
    simp only [chunks27Fuel]
    rw [if_pos (hl ▸ h)]
    have hd : (l.drop 27).length = l.length - 27 := List.length_drop 27 l
    rw [chunks27Fuel_congr k ((l.drop 27).length) (l.drop 27) (by omega) le_rfl]

theorem chunks27_small {l : List Nat} (h : l.length < 27) : chunks27 l = [] := by
  unfold chunks27
  cases hl : l.length with
  | zero => rfl
  | succ k =>
    simp only [chunks27Fuel]
    rw [if_neg (by omega)]

theorem chunks27_length (l : List Nat) : (chunks27 l).length = l.length / 27 := by
  by_cases h : 27 ≤ l.length
  · rw [chunks27_step h]
    have hd : (l.drop 27).length = l.length - 27 := List.length_drop 27 l
    have ih := chunks27_length (l.drop 27)
    simp only [List.length_cons, ih, hd]
    omega
  · rw [chunks27_small (by omega)]
    rw [Nat.div_eq_of_lt (show l.length < 27 by omega)]
    rfl
termination_by l.length
decreasing_by simp only [List.length_drop]; omega

theorem chunks27_flatten_take (l : List Nat) :
    (chunks27 l).flatten = l.take (27 * (l.length / 27)) := by
  by_cases h : 27 ≤ l.length
  · rw [chunks27_step h]
    have hd : (l.drop 27).length = l.length - 27 := List.length_drop 27 l
    have ih := chunks27_flatten_take (l.drop 27)
    simp only [List.flatten_cons, ih, hd]
    have hq : l.length / 27 = (l.length - 27) / 27 + 1 := by
      omega
    rw [hq, Nat.mul_add, Nat.mul_one]
    have h2 : 27 * ((l.length - 27) / 27) + 27
        = 27 + 27 * ((l.length - 27) / 27) := by omega
    rw [h2, List.take_add]
  · rw [chunks27_small (by omega)]
    rw [Nat.div_eq_of_lt (show l.length < 27 by omega)]
    simp
termination_by l.length
decreasing_by simp only [List.length_drop]; omega

theorem chunks27_mem_length {l r : List Nat} (h : r ∈ chunks27 l) : r.length = 27 := by
  by_cases h27 : 27 ≤ l.length
  · rw [chunks27_step h27] at h
    rcases List.mem_cons.mp h with rfl | h'
    · exact List.length_take_of_le h27
    · have hd : (l.drop 27).length = l.length - 27 := List.length_drop 27 l
      exact chunks27_mem_length h'
  · rw [chunks27_small (by omega)] at h
    cases h
termination_by l.length
decreasing_by simp only [List.length_drop]; omega

/-! ## C1 / C2: what `load_ply_binary` actually does -/

/-- Does any `readline` line of the file strip to `end_header`?  This is
exactly the condition under which the header loop terminates. -/
def hasEndHeaderB (file : List Nat) : Bool :=
  (toLines file).any (fun l => decide (stripBytes l = strBytes "end_header"))

theorem scanTL_no_end_header {ls : List (List Nat)}
    (h : ls.any (fun l => decide (stripBytes l = strBytes "end_header")) = false) :
    ∀ pos md, scanTLLines ls pos md = .hangs ∨ scanTLLines ls pos md = .excn := by
  induction ls with
  | nil => intro pos md; left; rfl
  | cons line rest ih =>
    intro pos md
    simp only [List.any_cons, Bool.or_eq_false_iff] at h
    cases hp : parseCommentTL line md with
    | none =>
      right
      simp [scanTLLines, hp]
    | some md' =>
      simp only [scanTLLines, hp]
      rw [if_neg (of_decide_eq_false h.1)]
      exact ih h.2 _ md'

theorem scanTL_hangs_no_end_header : ∀ (ls : List (List Nat)) (pos : Nat)
    (md : Metadata), scanTLLines ls pos md = .hangs →
    ls.any (fun l => decide (stripBytes l = strBytes "end_header")) = false := by
  intro ls
  induction ls with
  | nil => intro pos md _; rfl
  | cons line rest ih =>
    intro pos md h
    cases hp : parseCommentTL line md with
    | none =>
      simp only [scanTLLines, hp] at h
      exact TLScan.noConfusion h
    | some md' =>
      simp only [scanTLLines, hp] at h
      by_cases he : stripBytes line = strBytes "end_header"
      · rw [if_pos he] at h
        exact TLScan.noConfusion h
      · rw [if_neg he] at h
        simp only [List.any_cons, Bool.or_eq_false_iff]
        exact ⟨decide_eq_false he, ih _ md' h⟩

/-- **C1 (amended).** `load_ply_binary` never reads the declared vertex
count: whenever the header scan finds `end_header` at offset `he`, the
decode succeeds and returns one record per *complete* 27-byte chunk of the
remaining `file.length - he` body bytes — `⌊body/27⌋` records consuming
`27·⌊body/27⌋` bytes — so the decoded length equals the declared count
exactly when the body length is `27 · N`. -/
theorem C1_decode_length (file : List Nat) (he : Nat) (md : Metadata)
    (h : scanTL file = .done he md) :
    PLYLoader.load_ply_binary (some file)
        = .ok (chunks27 (file.drop he)) md ∧
    (chunks27 (file.drop he)).length = (file.length - he) / 27 ∧
    (chunks27 (file.drop he)).flatten
        = (file.drop he).take (27 * ((file.length - he) / 27)) ∧
    (∀ n : Nat, file.length - he = 27 * n →
      (chunks27 (file.drop he)).length = n) := by
  have hbl : (file.drop he).length = file.length - he := List.length_drop he file
  refine ⟨?_, ?_, ?_, ?_⟩
  · simp [PLYLoader.load_ply_binary, h]
  · rw [chunks27_length, hbl]
  · rw [chunks27_flatten_take, hbl]
  · intro n hn
    rw [chunks27_length, hbl, hn]
    omega

/-- The concrete file for the C1 counterexample: header declares
`element vertex 2` but only one 27-byte record follows. -/
def exFileC1 : List Nat :=
  strBytes "element vertex 2\nend_header\n" ++ List.replicate 27 0

/-- **C1 is false as stated**: `exFileC1` declares vertex count 2, decodes
successfully, yet yields 1 record (consuming 27, not `2*27`, bytes). -/
theorem C1_counterexample :
    scanDS exFileC1 = .done 28 ["element vertex 2", "end_header"] 2 ∧
    PLYLoader.load_ply_binary (some exFileC1)
      = .ok [List.replicate 27 0] {} ∧
    [List.replicate 27 0].length = 1 ∧ (1 : Nat) ≠ 2 := by
  refine ⟨by decide, by decide, rfl, by decide⟩

/-- Witness for C1 (amended) at `exFileC1`: the scan succeeds at offset 28
and the decode returns `⌊27/27⌋ = 1` record. -/
theorem C1_decode_length_witness :
    scanTL exFileC1 = .done 28 {} ∧
    (chunks27 (exFileC1.drop 28)).length = (exFileC1.length - 28) / 27 := by
  refine ⟨by decide, ?_⟩
  exact (C1_decode_length exFileC1 28 {} (by decide)).2.1

/-- The concrete file for the C2 counterexample: declared vertex count 0. -/
def exFileC2 : List Nat := strBytes "element vertex 0\nend_header\n"

/-- **C2 is false as stated**: a file whose declared vertex count is 0
decodes *successfully* (to zero records), instead of failing with
`FormatError`. -/
theorem C2_counterexample :
    scanDS exFileC2 = .done 28 ["element vertex 0", "end_header"] 0 ∧
    PLYLoader.load_ply_binary (some exFileC2) = .ok [] {} := by
  exact ⟨by decide, by decide⟩

/-- **C2 (amended).** The decoder returns the failure value `(None, None)`
exactly for an absent file or a comment line that fails to decode; when no
line of the file strips to `end_header` it does not fail — the header loop
never terminates; whenever the scan does find `end_header` the decode
succeeds regardless of the declared count or of body truncation; and a
load that reports failure leaves the frame cache and the
current-loaded-frame marker unchanged (no partial insert). -/
theorem C2_decode_failures :
    (PLYLoader.load_ply_binary none = .absent) ∧
    (∀ file, hasEndHeaderB file = false →
      PLYLoader.load_ply_binary (some file) = .hangs ∨
      PLYLoader.load_ply_binary (some file) = .errored) ∧
    (∀ file, PLYLoader.load_ply_binary (some file) = .hangs →
      hasEndHeaderB file = false) ∧
    (∀ file he md, scanTL file = .done he md →
      PLYLoader.load_ply_binary (some file)
        = .ok (chunks27 (file.drop he)) md) ∧
    (∀ (frameMap : Int → Option String) (loadFn : String → Option PlyEntry)
      (cacheSize : Nat) (st : HandlerState) (f : Int) (path : String),
      st.currentLoadedFrame ≠ some f →
      frameMap f = some path →
      st.cache.find? (fun q => decide (q.1 = f)) = none →
      loadFn path = none →
      (PLYFrameHandler.step frameMap loadFn cacheSize st f).1.cache = st.cache ∧
      (PLYFrameHandler.step frameMap loadFn cacheSize st f).1.currentLoadedFrame
        = st.currentLoadedFrame ∧
      (PLYFrameHandler.step frameMap loadFn cacheSize st f).2 = .loadFailed) := by
  refine ⟨rfl, ?_, ?_, ?_, ?_⟩
  · intro file hno
    rcases scanTL_no_end_header hno 0 ({} : Metadata) with h | h
    · left
      simp [PLYLoader.load_ply_binary, scanTL, h]
    · right
      simp [PLYLoader.load_ply_binary, scanTL, h]
  · intro file h
    cases hs : scanTL file with
    | hangs => exact scanTL_hangs_no_end_header (toLines file) 0 {} hs
    | excn =>
      simp [PLYLoader.load_ply_binary, hs] at h
    | done he md =>
      simp [PLYLoader.load_ply_binary, hs] at h
  · intro file he md h
    simp [PLYLoader.load_ply_binary, h]
  · intro frameMap loadFn cacheSize st f path hcur hpath hfind hload
    simp [PLYFrameHandler.step, hcur, hpath, hfind, hload]

/-- A concrete headerless file (no `end_header` anywhere). -/
def exFileNoEnd : List Nat := strBytes "ply\nformat binary\n"

/-- Witness for C2 (amended): the decoder hangs on `exFileNoEnd`, succeeds
on `exFileC2`, and a concrete failed load leaves a concrete cache
unchanged. -/
theorem C2_decode_failures_witness :
    (hasEndHeaderB exFileNoEnd = false ∧
      PLYLoader.load_ply_binary (some exFileNoEnd) = .hangs) ∧
    (PLYFrameHandler.step (fun _ => some "p") (fun _ => none) 10
        exStateMiss 2).1.cache = exStateMiss.cache := by
  constructor
  · refine ⟨by decide, ?_⟩
    rcases C2_decode_failures.2.1 exFileNoEnd (by decide) with h | h
    · exact h
    · exact absurd h (by decide)
  · exact (C2_decode_failures.2.2.2.2 (fun _ => some "p") (fun _ => none) 10
      exStateMiss 2 "p" (by decide) rfl (by decide) rfl).1

/-! ## C6: the LRU cache bound

The retained key list is characterised as the last `C` elements of the
request sequence deduplicated by *last* occurrence: exactly "the `C`
most-recently-touched frames", ordered least-recent first. -/

/-- The last `n` elements of a list. -/
def takeLast {α : Type} (n : Nat) (l : List α) : List α :=
  l.drop (l.length - n)

/-- Deduplicate keeping the *last* occurrence of each element, preserving
the order of those last occurrences. -/
def dedupLast {α : Type} [DecidableEq α] : List α → List α
  | [] => []
  | x :: xs => if x ∈ xs then dedupLast xs else x :: dedupLast xs

/-- The `C` most-recently-touched frames of a request sequence, least
recent first. -/
def mostRecent (c : Nat) (reqs : List Int) : List Int :=
  takeLast c (dedupLast reqs)

theorem takeLast_length {α : Type} (n : Nat) (l : List α) :
    (takeLast n l).length = min n l.length := by
  simp only [takeLast, List.length_drop]
  omega

theorem takeLast_of_le {α : Type} {n : Nat} {l : List α} (h : l.length ≤ n) :
    takeLast n l = l := by
  simp only [takeLast, Nat.sub_eq_zero_of_le h, List.drop_zero]

theorem takeLast_append_of_ge {α : Type} {n : Nat} {p x : List α}
    (h : n ≤ x.length) : takeLast n (p ++ x) = takeLast n x := by
  simp only [takeLast, List.length_append]
  have h2 : p.length + x.length - n = p.length + (x.length - n) := by omega
  rw [h2, List.drop_append]

theorem mem_dedupLast {α : Type} [DecidableEq α] {a : α} :
    ∀ {l : List α}, a ∈ dedupLast l ↔ a ∈ l := by
  intro l
  induction l with
  | nil => simp [dedupLast]
  | cons x xs ih =>
    simp only [dedupLast]
    by_cases hx : x ∈ xs
    · rw [if_pos hx, ih]
      constructor
      · exact fun h => List.mem_cons_of_mem x h
      · intro h
        rcases List.mem_cons.mp h with rfl | h'
        · exact hx
        · exact h'
    · rw [if_neg hx]
      simp [ih]

theorem nodup_dedupLast {α : Type} [DecidableEq α] :
    ∀ (l : List α), (dedupLast l).Nodup := by
  intro l
  induction l with
  | nil => exact List.nodup_nil
  | cons x xs ih =>
    simp only [dedupLast]
    by_cases hx : x ∈ xs
    · rw [if_pos hx]; exact ih
    · rw [if_neg hx]
      exact List.nodup_cons.mpr ⟨fun h => hx (mem_dedupLast.mp h), ih⟩

theorem dedupLast_append_singleton {α : Type} [DecidableEq α] (a : α) :
    ∀ (l : List α), dedupLast (l ++ [a])
      = (dedupLast l).filter (fun b => decide (b ≠ a)) ++ [a] := by
  intro l
  induction l with
  | nil => simp [dedupLast]
  | cons x xs ih =>
    simp only [List.cons_append, dedupLast, List.append_eq]
    by_cases hx : x ∈ xs
    · have h1 : x ∈ xs ++ [a] := List.mem_append_left _ hx
      rw [if_pos h1, if_pos hx, ih]
    · by_cases hxa : x = a
      · subst hxa
        have h1 : x ∈ xs ++ [x] := List.mem_append_right _ (by simp)
        rw [if_pos h1, if_neg hx, ih, List.filter_cons, if_neg (by simp)]
      · have h1 : x ∉ xs ++ [a] := by
          simp [hxa, hx]
        rw [if_neg h1, if_neg hx, ih, List.filter_cons,
          if_pos (by simp [hxa])]
        simp

theorem filter_ne_of_not_mem {α : Type} [DecidableEq α] {a : α} {l : List α}
    (h : a ∉ l) : l.filter (fun b => decide (b ≠ a)) = l := by
  apply List.filter_eq_self.mpr
  intro b hb
  simp only [decide_eq_true_eq]
  intro hba
  exact h (hba ▸ hb)

theorem getLast?_decomp {α : Type} : ∀ {l : List α} {a : α},
    l.getLast? = some a → ∃ l', l = l' ++ [a] := by
  intro l
  induction l with
  | nil => intro a h; cases h
  | cons x xs ih =>
    intro a h
    cases xs with
    | nil =>
      obtain rfl : x = a := by
        simpa [List.getLast?] using h
      exact ⟨[], rfl⟩
    | cons y ys =>
      have h' : (y :: ys).getLast? = some a := by
        rw [← h, List.getLast?_cons_cons]
      obtain ⟨l', hl⟩ := ih h'
      exact ⟨x :: l', by rw [hl, List.cons_append]⟩

theorem dedupLast_ends_with {α : Type} [DecidableEq α] {l : List α} {a : α}
    (h : l.getLast? = some a) :
    ∃ e, dedupLast l = e ++ [a] ∧ a ∉ e := by
  obtain ⟨l', rfl⟩ := getLast?_decomp h
  refine ⟨(dedupLast l').filter (fun b => decide (b ≠ a)), ?_, ?_⟩
  · exact dedupLast_append_singleton a l'
  · intro hmem
    have := List.of_mem_filter hmem
    simp at this

theorem filter_ne_length_of_nodup {α : Type} [DecidableEq α] {l : List α}
    {a : α} (hnd : l.Nodup) (ha : a ∈ l) :
    (l.filter (fun b => decide (b ≠ a))).length + 1 = l.length := by
  induction l with
  | nil => cases ha
  | cons x xs ih =>
    rw [List.filter_cons]
    rcases List.nodup_cons.mp hnd with ⟨hx, hnd'⟩
    by_cases hxa : x = a
    · subst hxa
      rw [if_neg (by simp)]
      rw [filter_ne_of_not_mem hx, List.length_cons]
    · have ha' : a ∈ xs := by
        rcases List.mem_cons.mp ha with rfl | h
        · exact absurd rfl hxa
        · exact h
      rw [if_pos (by simp [hxa])]
      simp only [List.length_cons]
      rw [← ih hnd' ha']

/-- Effect of a cache *hit* on the characterised key list. -/
theorem takeLast_filter_hit {C : Nat} {D : List Int} {f : Int}
    (hnd : D.Nodup) (hf : f ∈ takeLast C D) :
    takeLast C (D.filter (fun b => decide (b ≠ f)) ++ [f])
      = (takeLast C D).filter (fun b => decide (b ≠ f)) ++ [f] := by
  have hsplit : D.take (D.length - C) ++ takeLast C D = D :=
    List.take_append_drop (D.length - C) D
  have hnd2 : (D.take (D.length - C) ++ takeLast C D).Nodup := hsplit.symm ▸ hnd
  rcases List.nodup_append.mp hnd2 with ⟨hndP, hndS, hdisj⟩
  have hfP : f ∉ D.take (D.length - C) := fun h => hdisj h hf
  have hfilter : D.filter (fun b => decide (b ≠ f))
      = D.take (D.length - C) ++ (takeLast C D).filter (fun b => decide (b ≠ f)) := by
    conv_lhs => rw [← hsplit]
    rw [List.filter_append, filter_ne_of_not_mem hfP]
  have hlenS : ((takeLast C D).filter (fun b => decide (b ≠ f))).length + 1
      = (takeLast C D).length := filter_ne_length_of_nodup hndS hf
  have hXlen : ((takeLast C D).filter (fun b => decide (b ≠ f)) ++ [f]).length
      = (takeLast C D).length := by
    simp only [List.length_append, List.length_cons, List.length_nil]
    omega
  rw [hfilter, List.append_assoc]
  by_cases hDC : D.length ≤ C
  · have hPD : D.take (D.length - C) = [] := by
      rw [Nat.sub_eq_zero_of_le hDC]
      exact List.take_zero D
    have hSD : (takeLast C D).length = D.length := by
      rw [takeLast_of_le hDC]
    rw [hPD, List.nil_append]
    exact takeLast_of_le (by omega)
  · have hSCeq : (takeLast C D).length = C := by
      rw [takeLast_length]; omega
    rw [takeLast_append_of_ge (by omega)]
    exact takeLast_of_le (by omega)

/-- Effect of a cache *miss* on the characterised key list. -/
theorem takeLast_filter_miss {C : Nat} {D : List Int} {f : Int}
    (hf : f ∉ takeLast C D) :
    takeLast C (D.filter (fun b => decide (b ≠ f)) ++ [f])
      = if C < (takeLast C D).length + 1 then (takeLast C D ++ [f]).tail
        else takeLast C D ++ [f] := by
  have hsplit : D.take (D.length - C) ++ takeLast C D = D :=
    List.take_append_drop (D.length - C) D
  have hSfix : (takeLast C D).filter (fun b => decide (b ≠ f)) = takeLast C D :=
    filter_ne_of_not_mem hf
  by_cases hDC : D.length ≤ C
  · have hSD : takeLast C D = D := takeLast_of_le hDC
    rw [hSD] at hSfix
    rw [hSD, hSfix]
    by_cases hfull : D.length = C
    · rw [if_pos (by omega)]
      have hlen : (D ++ [f]).length - C = 1 := by
        simp only [List.length_append, List.length_cons, List.length_nil]
        omega
      rw [takeLast, hlen, List.drop_one]
    · rw [if_neg (by omega)]
      refine takeLast_of_le ?_
      simp only [List.length_append, List.length_cons, List.length_nil]
      omega
  · have hSC : (takeLast C D).length = C := by
      rw [takeLast_length]; omega
    have hfilter : D.filter (fun b => decide (b ≠ f))
        = (D.take (D.length - C)).filter (fun b => decide (b ≠ f))
          ++ takeLast C D := by
      conv_lhs => rw [← hsplit]
      rw [List.filter_append, hSfix]
    rw [hfilter, List.append_assoc]
    rw [if_pos (by omega)]
    have hXlen : (takeLast C D ++ [f]).length = C + 1 := by
      simp only [List.length_append, List.length_cons, List.length_nil]
      omega
    rw [takeLast_append_of_ge (show C ≤ (takeLast C D ++ [f]).length by omega)]
    have hlen : (takeLast C D ++ [f]).length - C = 1 := by omega
    rw [takeLast, hlen, List.drop_one]

/-- The requests that reach the cache: those present in `frame_map`. -/
def validOf (frameMap : Int → Option String) (reqs : List Int) : List Int :=
  reqs.filter (fun f => (frameMap f).isSome)

/-- Reachability invariant of the handler: the cache key order is the last
`C` elements of the valid-request history deduplicated by last occurrence,
and `current_loaded_frame` is the last successfully served request. -/
def CacheInv (c : Nat) (vs : List Int) (st : HandlerState) : Prop :=
  st.cache.map Prod.fst = takeLast c (dedupLast vs) ∧
  st.currentLoadedFrame = vs.getLast?

theorem map_fst_filter_ne (l : List (Int × PlyEntry)) (f : Int) :
    (l.filter (fun q => decide (q.1 ≠ f))).map Prod.fst
      = (l.map Prod.fst).filter (fun b => decide (b ≠ f)) := by
  induction l with
  | nil => rfl
  | cons a t ih =>
    rw [List.filter_cons, List.map_cons, List.filter_cons]
    by_cases h : a.1 = f
    · rw [if_neg (by simp [h]), if_neg (by simp [h]), ih]
    · rw [if_pos (by simp [h]), if_pos (by simp [h]), List.map_cons, ih]

theorem find?_key_none {l : List (Int × PlyEntry)} {f : Int} :
    l.find? (fun q => decide (q.1 = f)) = none ↔ f ∉ l.map Prod.fst := by
  rw [List.find?_eq_none]
  constructor
  · intro h hm
    obtain ⟨q, hq, hq1⟩ := List.mem_map.mp hm
    have hq2 : ¬(q.1 = f) := by simpa using h q hq
    exact hq2 hq1
  · intro h q hq
    simp only [decide_eq_true_eq]
    intro hq1
    exact h (hq1 ▸ List.mem_map_of_mem Prod.fst hq)

theorem step_inv (frameMap : Int → Option String)
    (loadFn : String → Option PlyEntry) {c : Nat}
    (hld : ∀ f p, frameMap f = some p → (loadFn p).isSome)
    {vs : List Int} {st : HandlerState} (hinv : CacheInv c vs st) (f : Int) :
    CacheInv c (vs ++ (if (frameMap f).isSome then [f] else []))
      (PLYFrameHandler.step frameMap loadFn c st f).1 := by
  obtain ⟨hkeys, hcur⟩ := hinv
  by_cases hcf : st.currentLoadedFrame = some f
  · have hstep : (PLYFrameHandler.step frameMap loadFn c st f).1 = st := by
      simp [PLYFrameHandler.step, hcf]
    rw [hstep]
    cases hfm : frameMap f with
    | none =>
      simp only [Option.isSome_none, Bool.false_eq_true, if_false,
        List.append_nil]
      exact ⟨hkeys, hcur⟩
    | some path =>
      simp only [Option.isSome_some, if_true]
      have hlast : vs.getLast? = some f := hcur ▸ hcf
      obtain ⟨e, hde, hfe⟩ := dedupLast_ends_with hlast
      have hD : dedupLast (vs ++ [f]) = dedupLast vs := by
        rw [dedupLast_append_singleton, hde, List.filter_append,
          filter_ne_of_not_mem hfe]
        simp
      refine ⟨?_, ?_⟩
      · rw [hD]
        exact hkeys
      · rw [hcf, List.getLast?_concat]
  · cases hfm : frameMap f with
    | none =>
      have hstep : (PLYFrameHandler.step frameMap loadFn c st f).1
          = { st with hideViewport := true, hideRender := true } := by
        simp [PLYFrameHandler.step, hcf, hfm]
      rw [hstep]
      simp only [Option.isSome_none, Bool.false_eq_true, if_false,
        List.append_nil]
      exact ⟨hkeys, hcur⟩
    | some path =>
      simp only [Option.isSome_some, if_true]
      cases hfind : st.cache.find? (fun q => decide (q.1 = f)) with
      | some entry =>
        have hstep : (PLYFrameHandler.step frameMap loadFn c st f).1
            = { cache := st.cache.filter (fun q => decide (q.1 ≠ f))
                  ++ [(f, entry.2)],
                currentLoadedFrame := some f,
                hideViewport := false, hideRender := false } := by
          simp [PLYFrameHandler.step, hcf, hfm, hfind]
        rw [hstep]
        have hmem : entry ∈ st.cache := List.mem_of_find?_eq_some hfind
        have hkey : entry.1 = f := by
          have := List.find?_some hfind
          simpa using this
        have hfkeys : f ∈ takeLast c (dedupLast vs) := by
          rw [← hkeys]
          exact hkey ▸ List.mem_map_of_mem Prod.fst hmem
        constructor
        · show (st.cache.filter (fun q => decide (q.1 ≠ f))
              ++ [(f, entry.2)]).map Prod.fst = _
          rw [List.map_append, map_fst_filter_ne, hkeys,
            dedupLast_append_singleton,
            takeLast_filter_hit (nodup_dedupLast vs) hfkeys]
          rfl
        · show some f = (vs ++ [f]).getLast?
          rw [List.getLast?_concat]
      | none =>
        have hsome := hld f path hfm
        cases hlp : loadFn path with
        | none => rw [hlp] at hsome; cases hsome
        | some e =>
          have hfkeys : f ∉ takeLast c (dedupLast vs) := by
            rw [← hkeys]
            exact find?_key_none.mp hfind
          have hmiss := takeLast_filter_miss hfkeys
          rw [← dedupLast_append_singleton] at hmiss
          have hkl : st.cache.length = (takeLast c (dedupLast vs)).length := by
            have := congrArg List.length hkeys
            simpa using this
          have hstep : (PLYFrameHandler.step frameMap loadFn c st f).1
              = { cache := if c < (st.cache ++ [(f, e)]).length
                    then (st.cache ++ [(f, e)]).tail
                    else st.cache ++ [(f, e)],
                  currentLoadedFrame := some f,
                  hideViewport := false, hideRender := false } := by
            simp [PLYFrameHandler.step, hcf, hfm, hfind, hlp]
          rw [hstep]
          by_cases hov : c < (st.cache ++ [(f, e)]).length
          · constructor
            · show ((if c < (st.cache ++ [(f, e)]).length
                  then (st.cache ++ [(f, e)]).tail
                  else st.cache ++ [(f, e)]).map Prod.fst) = _
              rw [if_pos hov, hmiss]
              rw [if_pos (by
                simp only [List.length_append, List.length_cons,
                  List.length_nil] at hov
                omega)]
              rw [← List.drop_one, List.map_drop, List.map_append, hkeys,
                List.drop_one]
              rfl
            · show some f = (vs ++ [f]).getLast?
              rw [List.getLast?_concat]
          · constructor
            · show ((if c < (st.cache ++ [(f, e)]).length
                  then (st.cache ++ [(f, e)]).tail
                  else st.cache ++ [(f, e)]).map Prod.fst) = _
              rw [if_neg hov, hmiss]
              rw [if_neg (by
                simp only [List.length_append, List.length_cons,
                  List.length_nil] at hov
                omega)]
              rw [List.map_append, hkeys]
              rfl
            · show some f = (vs ++ [f]).getLast?
              rw [List.getLast?_concat]

theorem run_inv (frameMap : Int → Option String)
    (loadFn : String → Option PlyEntry) {c : Nat}
    (hld : ∀ f p, frameMap f = some p → (loadFn p).isSome) :
    ∀ (reqs vs : List Int) (st : HandlerState), CacheInv c vs st →
      CacheInv c (vs ++ validOf frameMap reqs)
        (PLYFrameHandler.run frameMap loadFn c st reqs) := by
  intro reqs
  induction reqs with
  | nil =>
    intro vs st h
    simpa [validOf, PLYFrameHandler.run] using h
  | cons r rs ih =>
    intro vs st h
    have hstep := step_inv frameMap loadFn hld h r
    have hrec := ih (vs ++ (if (frameMap r).isSome then [r] else []))
      (PLYFrameHandler.step frameMap loadFn c st r).1 hstep
    have hv : validOf frameMap (r :: rs)
        = (if (frameMap r).isSome then [r] else []) ++ validOf frameMap rs := by
      simp only [validOf, List.filter_cons]
      by_cases hr : (frameMap r).isSome
      · simp [hr]
      · simp [hr]
    have hrun : PLYFrameHandler.run frameMap loadFn c st (r :: rs)
        = PLYFrameHandler.run frameMap loadFn c
            (PLYFrameHandler.step frameMap loadFn c st r).1 rs := rfl
    rw [hrun, hv, ← List.append_assoc]
    exact hrec

/-- **C6.** Starting from a fresh handler, for any capacity `C ≥ 1` and any
request sequence whose loads succeed, the retained cache key order equals
the last `C` most-recently-touched valid frames (deduplicated by last
touch), the cache never holds more than `C` entries, and as soon as more
than `C` distinct frames have been touched it holds exactly `C`. -/
theorem C6_cache_bound (frameMap : Int → Option String)
    (loadFn : String → Option PlyEntry) (c : Nat) (reqs : List Int)
    (_hC : 1 ≤ c)
    (hld : ∀ f p, frameMap f = some p → (loadFn p).isSome) :
    (PLYFrameHandler.run frameMap loadFn c
        (PLYFrameHandler.initState false false) reqs).cache.map Prod.fst
      = mostRecent c (validOf frameMap reqs) ∧
    (PLYFrameHandler.run frameMap loadFn c
        (PLYFrameHandler.initState false false) reqs).cache.length ≤ c ∧
    (c < (dedupLast (validOf frameMap reqs)).length →
      (PLYFrameHandler.run frameMap loadFn c
        (PLYFrameHandler.initState false false) reqs).cache.length = c) := by
  have hinit : CacheInv c [] (PLYFrameHandler.initState false false) := by
    constructor
    · simp [PLYFrameHandler.initState, takeLast, dedupLast]
    · rfl
  have h := run_inv frameMap loadFn hld reqs [] _ hinit
  rw [List.nil_append] at h
  obtain ⟨hkeys, _⟩ := h
  have hlen : (PLYFrameHandler.run frameMap loadFn c
      (PLYFrameHandler.initState false false) reqs).cache.length
        = min c (dedupLast (validOf frameMap reqs)).length := by
    have := congrArg List.length hkeys
    simpa [takeLast_length, mostRecent] using this
  refine ⟨hkeys, ?_, ?_⟩
  · omega
  · intro hlt
    omega

/-- Witness for C6: three distinct frames pushed through a capacity-2
cache retain exactly the two most recent. -/
theorem C6_cache_bound_witness :
    (PLYFrameHandler.run (fun _ => some "p") (fun _ => some exEntry) 2
        (PLYFrameHandler.initState false false) [1, 2, 3]).cache.map Prod.fst
      = mostRecent 2 (validOf (fun _ => some "p") [1, 2, 3]) ∧
    mostRecent 2 (validOf (fun _ => some "p") [1, 2, 3]) = [2, 3] := by
  constructor
  · exact (C6_cache_bound (fun _ => some "p") (fun _ => some exEntry) 2
      [1, 2, 3] (by omega) (fun f p _ => rfl)).1
  · decide

/-! ## Decimal print/parse round trip -/

theorem charToNatOfNat {n : Nat} (h : n < 128) : (Char.ofNat n).toNat = n := by
  unfold Char.ofNat Char.toNat
  rw [dif_pos (Or.inl (by omega : n < 55296))]
  unfold Char.ofNatAux
  show (UInt32.mk (BitVec.ofNatLt n _)).toNat = n
  simp [UInt32.toNat, BitVec.toNat_ofNatLt]

/-- Big-endian value of a digit list, shaped like `digitsVal?`. -/
def digitsBigVal : List Nat → Nat
  | [] => 0
  | d :: t => d * 10 ^ t.length + digitsBigVal t

theorem digitsBigVal_append (xs : List Nat) (d : Nat) :
    digitsBigVal (xs ++ [d]) = 10 * digitsBigVal xs + d := by
  induction xs with
  | nil => simp [digitsBigVal]
  | cons x t ih =>
    rw [List.cons_append]
    show x * 10 ^ (t ++ [d]).length + digitsBigVal (t ++ [d])
        = 10 * (x * 10 ^ t.length + digitsBigVal t) + d
    rw [ih, List.length_append]
    show x * 10 ^ (t.length + 1) + (10 * digitsBigVal t + d)
        = 10 * (x * 10 ^ t.length + digitsBigVal t) + d
    ring

theorem natDigitsRev_lt : ∀ (n : Nat), ∀ d ∈ natDigitsRev n, d < 10 := by
  intro n
  induction n using Nat.strong_induction_on with
  | _ n ih =>
    intro d hd
    unfold natDigitsRev at hd
    by_cases h : n < 10
    · rw [dif_pos h] at hd
      have : d = n := by simpa using hd
      omega
    · rw [dif_neg h] at hd
      rcases List.mem_cons.mp hd with rfl | hd'
      · exact Nat.mod_lt n (by omega)
      · exact ih (n / 10) (Nat.div_lt_self (by omega) (by omega)) d hd'

theorem natDigitsRev_ne_nil (n : Nat) : natDigitsRev n ≠ [] := by
  unfold natDigitsRev
  by_cases h : n < 10
  · rw [dif_pos h]; simp
  · rw [dif_neg h]; simp

theorem digitsBigVal_digits : ∀ (n : Nat),
    digitsBigVal (natDigitsRev n).reverse = n := by
  intro n
  induction n using Nat.strong_induction_on with
  | _ n ih =>
    unfold natDigitsRev
    by_cases h : n < 10
    · rw [dif_pos h]
      simp [digitsBigVal]
    · rw [dif_neg h]
      rw [List.reverse_cons, digitsBigVal_append,
        ih (n / 10) (Nat.div_lt_self (by omega) (by omega))]
      omega

theorem digitVal?_digit {d : Nat} (h : d < 10) :
    digitVal? (Char.ofNat (48 + d)) = some d := by
  have hv : (Char.ofNat (48 + d)).toNat = 48 + d := charToNatOfNat (by omega)
  simp only [digitVal?, hv]
  rw [if_pos (by omega)]
  simp

theorem digitsVal?_cons_cons (c1 c2 : Char) (cs : List Char) :
    digitsVal? (c1 :: c2 :: cs)
      = (digitVal? c1).bind (fun d => (digitsVal? (c2 :: cs)).bind
          (fun r => some (d * 10 ^ (c2 :: cs).length + r))) := by
  rfl

theorem digitsVal?_map : ∀ (ds : List Nat), ds ≠ [] → (∀ d ∈ ds, d < 10) →
    digitsVal? (ds.map (fun d => Char.ofNat (48 + d)))
      = some (digitsBigVal ds) := by
  intro ds
  induction ds with
  | nil => intro h; exact absurd rfl h
  | cons d t ih =>
    intro _ hlt
    have hd : d < 10 := hlt d (List.mem_cons_self d t)
    cases t with
    | nil =>
      simp only [List.map_cons, List.map_nil, digitsVal?, digitVal?_digit hd]
      simp [digitsBigVal]
    | cons d2 t2 =>
      have ht := ih (by simp) (fun x hx => hlt x (List.mem_cons_of_mem d hx))
      rw [List.map_cons] at ht
      rw [List.map_cons, List.map_cons, digitsVal?_cons_cons,
        digitVal?_digit hd, ht]
      simp only [Option.bind_eq_bind, Option.some_bind, List.length_cons,
        List.length_map]
      rfl

theorem digitsVal?_natChars (n : Nat) : digitsVal? (natChars n) = some n := by
  unfold natChars
  rw [digitsVal?_map ((natDigitsRev n).reverse)
    (by simpa using natDigitsRev_ne_nil n)
    (fun d hd => natDigitsRev_lt n d (List.mem_reverse.mp hd))]
  rw [digitsBigVal_digits]

theorem natChars_head_digit (n : Nat) :
    ∀ c ∈ natChars n, 48 ≤ c.toNat ∧ c.toNat ≤ 57 := by
  intro c hc
  unfold natChars at hc
  obtain ⟨d, hd, rfl⟩ := List.mem_map.mp hc
  have hlt : d < 10 := natDigitsRev_lt n d (List.mem_reverse.mp hd)
  have hv : (Char.ofNat (48 + d)).toNat = 48 + d := charToNatOfNat (by omega)
  omega

theorem natChars_ne_nil (n : Nat) : natChars n ≠ [] := by
  unfold natChars
  intro h
  have := natDigitsRev_ne_nil n
  simp at h
  exact this h

/-- `parsePyInt?` inverts decimal printing of a natural number. -/
theorem parsePyInt?_natChars (n : Nat) :
    parsePyInt? ⟨natChars n⟩ = some (n : Int) := by
  have hdig := natChars_head_digit n
  rcases hm : natChars n with _ | ⟨c, cs⟩
  · exact absurd hm (natChars_ne_nil n)
  · have hc : 48 ≤ c.toNat ∧ c.toNat ≤ 57 :=
      hdig c (hm ▸ List.mem_cons_self c cs)
    have hcm : ¬(c = '-') := by
      intro h
      subst h
      have h45 : ('-').toNat = 45 := by decide
      rw [h45] at hc
      omega
    have hcp : ¬(c = '+') := by
      intro h
      subst h
      have h43 : ('+').toNat = 43 := by decide
      rw [h43] at hc
      omega
    have hdv : digitsVal? (c :: cs) = some n := hm ▸ digitsVal?_natChars n
    have hred : parsePyInt? ⟨c :: cs⟩
        = (if c = '-' then (digitsVal? cs).map (fun m => -(m : Int))
          else if c = '+' then (digitsVal? cs).map (fun m => (m : Int))
          else (digitsVal? (c :: cs)).map (fun m => (m : Int))) := rfl
    rw [hred, if_neg hcm, if_neg hcp, hdv]
    rfl

/-! ## Clean header lines and the write/scan round trip -/

/-- The bytes `write_ply` emits for one header line. -/
def lineB (s : String) : List Nat := strBytes s ++ [10]

/-- The byte stream of a list of header lines. -/
def bytesOfLines (lines : List String) : List Nat := (lines.map lineB).flatten

/-- A header line that survives the strip/decode round trip unchanged:
ASCII, no newline, and no leading/trailing whitespace. -/
def cleanLineB (s : String) : Bool :=
  s.data.all (fun c => decide (c.toNat < 128) && decide (c ≠ '\n')) &&
  (match s.data.head? with | some c => !isSpaceChar c | none => true) &&
  (match s.data.getLast? with | some c => !isSpaceChar c | none => true)

theorem cleanLineB_ascii {s : String} (h : cleanLineB s = true) :
    ∀ c ∈ s.data, c.toNat < 128 := by
  intro c hc
  simp only [cleanLineB, Bool.and_eq_true, List.all_eq_true] at h
  have := h.1.1 c hc
  simp only [Bool.and_eq_true, decide_eq_true_eq] at this
  exact this.1

theorem cleanLineB_no_newline {s : String} (h : cleanLineB s = true) :
    ∀ c ∈ s.data, c ≠ '\n' := by
  intro c hc
  simp only [cleanLineB, Bool.and_eq_true, List.all_eq_true] at h
  have := h.1.1 c hc
  simp only [Bool.and_eq_true, decide_eq_true_eq] at this
  exact this.2

theorem cleanLineB_head {s : String} (h : cleanLineB s = true) :
    ∀ c, s.data.head? = some c → isSpaceChar c = false := by
  intro c hc
  simp only [cleanLineB, Bool.and_eq_true] at h
  have := h.1.2
  rw [hc] at this
  simpa using this

theorem cleanLineB_last {s : String} (h : cleanLineB s = true) :
    ∀ c, s.data.getLast? = some c → isSpaceChar c = false := by
  intro c hc
  simp only [cleanLineB, Bool.and_eq_true] at h
  have := h.2
  rw [hc] at this
  simpa using this

theorem strBytes_append (s t : String) :
    strBytes (s ++ t) = strBytes s ++ strBytes t := by
  simp [strBytes, String.data_append]

theorem ten_not_mem_strBytes {s : String} (h : ∀ c ∈ s.data, c ≠ '\n') :
    10 ∉ strBytes s := by
  intro hm
  obtain ⟨c, hc, hct⟩ := List.mem_map.mp hm
  have : c = '\n' := by
    have h2 := Char.ofNat_toNat c
    rw [hct] at h2
    rw [← h2]
  exact h c hc this

theorem toLines_ten_cons : ∀ (l rest : List Nat), 10 ∉ l →
    toLines (l ++ 10 :: rest) = (l ++ [10]) :: toLines rest := by
  intro l
  induction l with
  | nil =>
    intro rest _
    simp [toLines]
  | cons b bl ih =>
    intro rest hnm
    have hb : ¬(b = 10) := fun h => hnm (h ▸ List.mem_cons_self b bl)
    have hbl : 10 ∉ bl := fun h => hnm (List.mem_cons_of_mem b h)
    rw [List.cons_append]
    rw [show toLines (b :: (bl ++ 10 :: rest))
        = (if b = 10 then [10] :: toLines (bl ++ 10 :: rest)
          else match toLines (bl ++ 10 :: rest) with
            | [] => [[b]]
            | l :: ls => (b :: l) :: ls) from rfl]
    rw [if_neg hb, ih rest hbl]
    rfl

theorem decodeAscii?_lineB {s : String} (h : ∀ c ∈ s.data, c.toNat < 128) :
    decodeAscii? (lineB s) = some (s.data ++ ['\n']) := by
  unfold decodeAscii? lineB strBytes
  rw [if_pos]
  · have h2 : List.map Char.ofNat (List.map Char.toNat s.data ++ [10])
        = s.data ++ ['\n'] := by
      rw [List.map_append, List.map_map]
      have h1 : List.map (Char.ofNat ∘ Char.toNat) s.data = s.data := by
        conv_rhs => rw [← List.map_id s.data]
        exact List.map_congr_left (fun c _ => Char.ofNat_toNat c)
      rw [h1]
      rfl
    rw [h2]
  · rw [List.all_eq_true]
    intro b hb
    rcases List.mem_append.mp hb with hb' | hb'
    · obtain ⟨c, hc, rfl⟩ := List.mem_map.mp hb'
      simpa using h c hc
    · simp only [List.mem_singleton] at hb'
      subst hb'
      decide

theorem dropWhile_of_head {l : List Char}
    (h : ∀ c, l.head? = some c → isSpaceChar c = false) :
    l.dropWhile isSpaceChar = l := by
  cases l with
  | nil => rfl
  | cons c t =>
    rw [List.dropWhile_cons]
    rw [h c rfl]
    simp

theorem stripChars_clean {s : String} (h : cleanLineB s = true) :
    stripChars s.data = s.data := by
  unfold stripChars
  rw [dropWhile_of_head (cleanLineB_head h)]
  rw [dropWhile_of_head (by
    intro c hc
    rw [List.head?_reverse] at hc
    exact cleanLineB_last h c hc)]
  exact List.reverse_reverse s.data

theorem stripChars_lineB {s : String} (h : cleanLineB s = true) :
    stripChars (s.data ++ ['\n']) = s.data := by
  cases hd : s.data with
  | nil => decide
  | cons c t =>
    unfold stripChars
    have hhead : isSpaceChar c = false := cleanLineB_head h c (by rw [hd]; rfl)
    rw [List.cons_append, List.dropWhile_cons, hhead]
    simp only [Bool.false_eq_true, if_false]
    have hrev : (c :: (t ++ ['\n'])).reverse = '\n' :: (c :: t).reverse := by
      rw [show c :: (t ++ ['\n']) = (c :: t) ++ ['\n'] from rfl,
        List.reverse_append]
      rfl
    rw [hrev, List.dropWhile_cons]
    rw [show isSpaceChar '\n' = true from rfl]
    simp only [if_true]
    rw [dropWhile_of_head (by
      intro x hx
      rw [List.head?_reverse] at hx
      exact cleanLineB_last h x (by rw [hd]; exact hx))]
    rw [List.reverse_reverse]

/-- Decoding and stripping a written line recovers the original string. -/
theorem stripDecode_lineB {s : String} (h : cleanLineB s = true) :
    ∃ raw, decodeAscii? (lineB s) = some raw ∧
      (⟨stripChars raw⟩ : String) = s := by
  refine ⟨s.data ++ ['\n'], decodeAscii?_lineB (cleanLineB_ascii h), ?_⟩
  rw [stripChars_lineB h]

/-- The `vertex_count` parsed from one header line:
`int(line.split()[-1])`. -/
def vcParse? (s : String) : Option Int :=
  (splitWsStr s).getLast?.bind parsePyInt?

/-- A line on which the `element vertex` branch cannot raise. -/
def ElemOkB (s : String) : Bool :=
  !(startsWithStr s "element vertex") || (vcParse? s).isSome

/-- One line's effect on the running `vertex_count` of the scan. -/
def stepVC (v : Int) (s : String) : Int :=
  if startsWithStr s "element vertex" then (vcParse? s).getD v else v

/-- `vertex_count` after scanning a list of header lines. -/
def foldVC (v : Int) (lines : List String) : Int :=
  lines.foldl stepVC v

/-- One line's effect on the metadata dict of `load_ply_binary`. -/
def stepMd (md : Metadata) (s : String) : Metadata :=
  (parseCommentTL (lineB s) md).getD md

/-- Metadata after scanning a list of header lines. -/
def foldMd (md : Metadata) (lines : List String) : Metadata :=
  lines.foldl stepMd md

theorem toLines_bytesOfLines : ∀ (lines : List String) (rest : List Nat),
    (∀ s ∈ lines, ∀ c ∈ s.data, c ≠ '\n') →
    toLines (bytesOfLines lines ++ rest) = lines.map lineB ++ toLines rest := by
  intro lines
  induction lines with
  | nil => intro rest _; rfl
  | cons s ls ih =>
    intro rest h
    have hs : 10 ∉ strBytes s :=
      ten_not_mem_strBytes (h s (List.mem_cons_self s ls))
    have hb : bytesOfLines (s :: ls) ++ rest
        = strBytes s ++ (10 :: (bytesOfLines ls ++ rest)) := by
      show (lineB s :: ls.map lineB).flatten ++ rest = _
      rw [List.flatten_cons, List.append_assoc]
      unfold lineB
      rw [List.append_assoc]
      rfl
    rw [hb, toLines_ten_cons (strBytes s) _ hs,
      ih rest (fun t ht => h t (List.mem_cons_of_mem s ht))]
    rfl

theorem stripBytes_map (l : List Char) :
    stripBytes (l.map Char.toNat) = (stripChars l).map Char.toNat := by
  unfold stripBytes stripChars
  rw [List.dropWhile_map, ← List.map_reverse, List.dropWhile_map,
    ← List.map_reverse]
  rfl

theorem strBytes_inj {s t : String} (h : strBytes s = strBytes t) : s = t := by
  have hdata : s.data = t.data := by
    have h1 := congrArg (List.map Char.ofNat) h
    unfold strBytes at h1
    rw [List.map_map, List.map_map] at h1
    have he : ∀ (u : String),
        u.data.map (Char.ofNat ∘ Char.toNat) = u.data := by
      intro u
      conv_rhs => rw [← List.map_id u.data]
      exact List.map_congr_left (fun c _ => Char.ofNat_toNat c)
    rw [he s, he t] at h1
    exact h1
  cases s
  cases t
  exact congrArg String.mk (by simpa using hdata)

/-- `bytes.strip()` of a written line is the original line's bytes. -/
theorem stripBytes_lineB {s : String} (h : cleanLineB s = true) :
    stripBytes (lineB s) = strBytes s := by
  have h1 : lineB s = (s.data ++ ['\n']).map Char.toNat := by
    unfold lineB strBytes
    rw [List.map_append]
    rfl
  rw [h1, stripBytes_map, stripChars_lineB h]
  rfl

/-- On a line whose decode succeeds, the comment parser cannot raise. -/
theorem parseCommentTL_isSome (line : List Nat) (md : Metadata)
    (h : (decodeAscii? line).isSome) : (parseCommentTL line md).isSome := by
  unfold parseCommentTL
  by_cases hcm : startsWithList line (strBytes "comment") = true
  · rw [if_pos hcm]
    cases hdec : decodeAscii? line with
    | none => rw [hdec] at h; simp at h
    | some raw =>
      simp only []
      rcases h1 : splitFirst? "torso_7_global_position:".data (stripChars raw)
          with _ | ⟨a1, b1⟩
      · simp only [h1]
        rcases h2 : splitFirst? "PointCloudFrame:".data (stripChars raw)
            with _ | ⟨a2, b2⟩
        · simp only [h2]
          rcases h3 : splitFirst? "BvhFrame:".data (stripChars raw)
              with _ | ⟨a3, b3⟩
          · simp only [h3, Option.isSome_some]
          · simp only [h3, Option.isSome_some]
        · simp only [h2, Option.isSome_some]
      · simp only [h1, Option.isSome_some]
  · rw [if_neg hcm]
    simp

theorem bytesOfLines_cons_length (x : String) (xs : List String) :
    (bytesOfLines (x :: xs)).length
      = (lineB x).length + (bytesOfLines xs).length := by
  unfold bytesOfLines
  rw [List.map_cons, List.flatten_cons, List.length_append]

/-- One non-terminal clean header line advances the `downsample_ply` scan
by its byte length, appends the line, and folds the vertex count. -/
theorem scanDSLines_cons_clean {s : String} (h : cleanLineB s = true)
    (hok : ElemOkB s = true) (hne : s ≠ "end_header")
    (rest' : List (List Nat)) (pos : Nat) (acc : List String) (vc : Int) :
    scanDSLines (lineB s :: rest') pos acc vc
      = scanDSLines rest' (pos + (lineB s).length) (acc ++ [s])
          (stepVC vc s) := by
  have hdec : decodeAscii? (lineB s) = some (s.data ++ ['\n']) :=
    decodeAscii?_lineB (cleanLineB_ascii h)
  have heta : (⟨s.data⟩ : String) = s := rfl
  simp only [scanDSLines, hdec]
  rw [stripChars_lineB h, heta]
  by_cases hsw : startsWithStr s "element vertex" = true
  · have hvs : (vcParse? s).isSome := by
      unfold ElemOkB at hok
      rw [hsw] at hok
      simpa using hok
    cases hgl : (splitWsStr s).getLast? with
    | none =>
      unfold vcParse? at hvs
      rw [hgl] at hvs
      simp at hvs
    | some tok =>
      cases hp : parsePyInt? tok with
      | none =>
        unfold vcParse? at hvs
        rw [hgl] at hvs
        simp only [Option.some_bind] at hvs
        rw [hp] at hvs
        simp at hvs
      | some n =>
        rw [if_pos hsw]
        simp only [hgl, hp]
        rw [if_neg hne]
        have hstep : stepVC vc s = n := by
          unfold stepVC vcParse?
          rw [if_pos hsw, hgl]
          simp only [Option.some_bind]
          rw [hp]
          rfl
        rw [hstep]
  · rw [if_neg hsw, if_neg hne]
    have hstep : stepVC vc s = vc := by
      unfold stepVC
      rw [if_neg hsw]
    rw [hstep]

/-- The `end_header` line terminates the `downsample_ply` scan. -/
theorem scanDSLines_end (rest' : List (List Nat)) (pos : Nat)
    (acc : List String) (vc : Int) :
    scanDSLines (lineB "end_header" :: rest') pos acc vc
      = .done (pos + 11) (acc ++ ["end_header"]) vc := rfl

/-- Scanning a well-formed written header: the scan stops after the final
`end_header` line, collects exactly the lines, and the vertex count is the
fold of the `element vertex` rewrites. -/
theorem scanDS_written : ∀ (pre : List String) (pos : Nat)
    (acc : List String) (vc : Int) (junk : List (List Nat)),
    (∀ s ∈ pre, cleanLineB s = true ∧ ElemOkB s = true ∧ s ≠ "end_header") →
    scanDSLines ((pre ++ ["end_header"]).map lineB ++ junk) pos acc vc
      = .done (pos + (bytesOfLines (pre ++ ["end_header"])).length)
          (acc ++ (pre ++ ["end_header"])) (foldVC vc pre) := by
  intro pre
  induction pre with
  | nil =>
    intro pos acc vc junk _
    show scanDSLines (lineB "end_header" :: junk) pos acc vc = _
    rw [scanDSLines_end]
    rfl
  | cons s ls ih =>
    intro pos acc vc junk h
    have hs := h s (List.mem_cons_self s ls)
    rw [List.cons_append, List.map_cons, List.cons_append]
    rw [scanDSLines_cons_clean hs.1 hs.2.1 hs.2.2]
    rw [ih (pos + (lineB s).length) (acc ++ [s]) (stepVC vc s) junk
      (fun t ht => h t (List.mem_cons_of_mem s ht))]
    have hlen : pos + (lineB s).length
        + (bytesOfLines (ls ++ ["end_header"])).length
        = pos + (bytesOfLines ((s :: ls) ++ ["end_header"])).length := by
      rw [List.cons_append, bytesOfLines_cons_length]
      omega
    rw [hlen, List.append_assoc]
    rfl

/-- One non-terminal clean header line advances the `load_ply_binary` scan
and folds the metadata. -/
theorem scanTLLines_cons_clean {s : String} (h : cleanLineB s = true)
    (hne : s ≠ "end_header") (rest' : List (List Nat)) (pos : Nat)
    (md : Metadata) :
    scanTLLines (lineB s :: rest') pos md
      = scanTLLines rest' (pos + (lineB s).length) (stepMd md s) := by
  have hdec : (decodeAscii? (lineB s)).isSome := by
    rw [decodeAscii?_lineB (cleanLineB_ascii h)]
    rfl
  have hsome := parseCommentTL_isSome (lineB s) md hdec
  cases hmd : parseCommentTL (lineB s) md with
  | none => rw [hmd] at hsome; simp at hsome
  | some md' =>
    simp only [scanTLLines, hmd]
    rw [stripBytes_lineB h]
    rw [if_neg (fun hb => hne (strBytes_inj hb))]
    have hstep : stepMd md s = md' := by
      unfold stepMd
      rw [hmd]
      rfl
    rw [hstep]

/-- The `end_header` line terminates the `load_ply_binary` scan. -/
theorem scanTLLines_end (rest' : List (List Nat)) (pos : Nat)
    (md : Metadata) :
    scanTLLines (lineB "end_header" :: rest') pos md
      = .done (pos + 11) md := rfl

/-- Scanning a well-formed written header with `load_ply_binary`: the scan
stops after `end_header` and the metadata is the fold of the comment
parses. -/
theorem scanTL_written : ∀ (pre : List String) (pos : Nat) (md : Metadata)
    (junk : List (List Nat)),
    (∀ s ∈ pre, cleanLineB s = true ∧ s ≠ "end_header") →
    scanTLLines ((pre ++ ["end_header"]).map lineB ++ junk) pos md
      = .done (pos + (bytesOfLines (pre ++ ["end_header"])).length)
          (foldMd md pre) := by
  intro pre
  induction pre with
  | nil =>
    intro pos md junk _
    show scanTLLines (lineB "end_header" :: junk) pos md = _
    rw [scanTLLines_end]
    rfl
  | cons s ls ih =>
    intro pos md junk h
    have hs := h s (List.mem_cons_self s ls)
    rw [List.cons_append, List.map_cons, List.cons_append]
    rw [scanTLLines_cons_clean hs.1 hs.2]
    rw [ih (pos + (lineB s).length) (stepMd md s) junk
      (fun t ht => h t (List.mem_cons_of_mem s ht))]
    have hlen : pos + (lineB s).length
        + (bytesOfLines (ls ++ ["end_header"])).length
        = pos + (bytesOfLines ((s :: ls) ++ ["end_header"])).length := by
      rw [List.cons_append, bytesOfLines_cons_length]
      omega
    rw [hlen]
    rfl

/-- What `write_ply` does to one header line, at string level: every
`element vertex` line is rewritten with the new count, everything else is
kept verbatim. -/
def rewriteLine (n : Int) (s : String) : String :=
  if startsWithStr s "element vertex"
  then "element vertex " ++ (⟨intChars n⟩ : String)
  else s

theorem write_ply_eq (header_lines : List String) (n : Int)
    (body : List Nat) :
    RenderAddon.write_ply header_lines n body
      = bytesOfLines (header_lines.map (rewriteLine n)) ++ body := by
  unfold RenderAddon.write_ply bytesOfLines
  rw [List.map_map]
  congr 2
  apply List.map_congr_left
  intro line _
  simp only [Function.comp]
  unfold rewriteLine
  by_cases hsw : startsWithStr line "element vertex" = true
  · rw [if_pos hsw, if_pos hsw]
    show strBytes (("element vertex " ++ String.mk (intChars n)) ++ "\n") = _
    rw [strBytes_append]
    rfl
  · rw [if_neg hsw, if_neg hsw]
    by_cases hend : line = "end_header"
    · rw [if_pos hend, hend]
      rfl
    · rw [if_neg hend, strBytes_append]
      rfl

/-- The identical function in src/json_render_addon.py writes the same
bytes. -/
theorem json_write_ply_eq (header_lines : List String) (n : Int)
    (body : List Nat) :
    JsonRenderAddon.write_ply header_lines n body
      = RenderAddon.write_ply header_lines n body := rfl

theorem splitWsAcc_nonspace : ∀ (ds cur : List Char),
    (∀ c ∈ ds, isSpaceChar c = false) →
    splitWsAcc cur ds
      = if cur.isEmpty && ds.isEmpty then [] else [cur.reverse ++ ds] := by
  intro ds
  induction ds with
  | nil =>
    intro cur _
    show (if cur.isEmpty then [] else [cur.reverse]) = _
    by_cases hc : cur.isEmpty
    · rw [if_pos hc]
      rw [if_pos (by rw [hc]; rfl)]
    · rw [if_neg hc]
      rw [if_neg (by rw [Bool.and_eq_true]; intro hh; exact hc hh.1)]
      rw [List.append_nil]
  | cons c t ih =>
    intro cur h
    have hc : isSpaceChar c = false := h c (List.mem_cons_self c t)
    show (if isSpaceChar c = true then _ else splitWsAcc (c :: cur) t) = _
    rw [hc]
    simp only [Bool.false_eq_true, if_false]
    rw [ih (c :: cur) (fun x hx => h x (List.mem_cons_of_mem c hx))]
    rw [if_neg (by rw [Bool.and_eq_true]; intro hh; exact absurd hh.1 (by simp))]
    rw [if_neg (by rw [Bool.and_eq_true]; intro hh; exact absurd hh.2 (by simp))]
    rw [List.reverse_cons, List.append_assoc]
    rfl

theorem splitWsAcc_element (X : List Char) (hX1 : X ≠ [])
    (hX2 : ∀ c ∈ X, isSpaceChar c = false) :
    splitWsAcc [] ("element vertex ".data ++ X)
      = ["element".data, "vertex".data, X] := by
  have h1 : splitWsAcc [] ("element vertex ".data ++ X)
      = "element".data :: splitWsAcc [] ("vertex ".data ++ X) := rfl
  have h2 : splitWsAcc [] ("vertex ".data ++ X)
      = "vertex".data :: splitWsAcc [] X := rfl
  rw [h1, h2, splitWsAcc_nonspace X [] hX2]
  rw [if_neg (by rw [Bool.and_eq_true]; intro hh; exact hX1 (by simpa using hh.2))]
  rfl

theorem startsWithList_append_self {α : Type} [DecidableEq α] :
    ∀ (p t : List α), startsWithList (p ++ t) p = true := by
  intro p
  induction p with
  | nil =>
    intro t
    cases t with
    | nil => rfl
    | cons a u => rfl
  | cons a u ih =>
    intro t
    show (a == a && startsWithList (u ++ t) u) = true
    rw [ih t]
    simp

theorem intChars_natCast (m : Nat) : intChars ((m : Nat) : Int) = natChars m := by
  unfold intChars
  rw [if_neg (by omega)]
  rw [Int.toNat_ofNat]

theorem natChars_nonspace (m : Nat) :
    ∀ c ∈ natChars m, isSpaceChar c = false := by
  intro c hc
  have := natChars_head_digit m c hc
  unfold isSpaceChar isSpaceByte
  simp only [Bool.or_eq_false_iff, beq_eq_false_iff_ne]
  omega

/-- `line.split()[-1]` of a rewritten count line parses back to the
count. -/
theorem vcParse?_element (m : Nat) :
    vcParse? ("element vertex " ++ (⟨natChars m⟩ : String)) = some (m : Int) := by
  unfold vcParse? splitWsStr
  have hdata : ("element vertex " ++ (⟨natChars m⟩ : String)).data
      = "element vertex ".data ++ natChars m := String.data_append _ _
  rw [hdata, splitWsAcc_element (natChars m) (natChars_ne_nil m)
    (natChars_nonspace m)]
  rw [List.map_cons, List.map_cons, List.map_cons, List.map_nil]
  show (some (⟨natChars m⟩ : String)).bind parsePyInt? = some (m : Int)
  rw [Option.some_bind]
  exact parsePyInt?_natChars m

theorem startsWithStr_element (m : Nat) :
    startsWithStr ("element vertex " ++ (⟨natChars m⟩ : String))
      "element vertex" = true := by
  unfold startsWithStr
  rw [String.data_append]
  have : "element vertex ".data ++ natChars m
      = "element vertex".data ++ (' ' :: natChars m) := rfl
  rw [this]
  exact startsWithList_append_self _ _

theorem cleanLineB_element (m : Nat) :
    cleanLineB ("element vertex " ++ (⟨natChars m⟩ : String)) = true := by
  unfold cleanLineB
  rw [String.data_append]
  have hX := natChars_head_digit m
  rw [Bool.and_eq_true, Bool.and_eq_true]
  have hconc : ∀ c ∈ "element vertex ".data,
      (decide (c.toNat < 128) && decide (c ≠ '\n')) = true := by decide
  refine ⟨⟨?_, ?_⟩, ?_⟩
  · rw [List.all_eq_true]
    intro c hc
    rcases List.mem_append.mp hc with hc' | hc'
    · exact hconc c hc'
    · have hd : c ∈ natChars m := hc'
      have := hX c hd
      rw [Bool.and_eq_true, decide_eq_true_eq, decide_eq_true_eq]
      constructor
      · omega
      · intro hnl
        subst hnl
        have h10 : ('\n').toNat = 10 := by decide
        omega
  · rfl
  · show (match ("element vertex ".data
        ++ (⟨natChars m⟩ : String).data).getLast? with
      | some c => !isSpaceChar c
      | none => true) = true
    have hgl : ("element vertex ".data
          ++ (⟨natChars m⟩ : String).data).getLast?
        = (natChars m).getLast? := by
      show ("element vertex ".data ++ natChars m).getLast? = _
      rw [List.getLast?_append_of_ne_nil]
      exact natChars_ne_nil m
    rw [hgl]
    cases hm : (natChars m).getLast? with
    | none =>
      exact absurd (List.getLast?_eq_none_iff.mp hm) (natChars_ne_nil m)
    | some c =>
      have hcm : c ∈ natChars m := by
        rw [List.getLast?_eq_getLast _ (natChars_ne_nil m)] at hm
        have := List.getLast_mem (natChars_ne_nil m)
        rwa [Option.some_inj.mp hm] at this
      show (!isSpaceChar c) = true
      rw [natChars_nonspace m c hcm]
      rfl

theorem element_ne_end (m : Nat) :
    ("element vertex " ++ (⟨natChars m⟩ : String)) ≠ "end_header" := by
  intro h
  have hlen := congrArg (fun t : String => t.data.length) h
  simp only [String.data_append] at hlen
  rw [List.length_append] at hlen
  have h15 : ("element vertex ".data).length = 15 := rfl
  have h10 : ("end_header".data).length = 10 := rfl
  rw [h15, h10] at hlen
  have := natChars_ne_nil m
  cases hc : natChars m with
  | nil => exact this hc
  | cons a t =>
    rw [hc] at hlen
    rw [List.length_cons] at hlen
    omega

theorem rewriteLine_non_elem {n : Int} {s : String}
    (hsw : startsWithStr s "element vertex" = false) :
    rewriteLine n s = s := by
  unfold rewriteLine
  rw [hsw]
  simp

theorem rewriteLine_elem (m : Nat) {s : String}
    (hsw : startsWithStr s "element vertex" = true) :
    rewriteLine ((m : Nat) : Int) s
      = "element vertex " ++ (⟨natChars m⟩ : String) := by
  unfold rewriteLine
  rw [if_pos hsw, intChars_natCast]

theorem stepVC_elem (m : Nat) (v : Int) :
    stepVC v ("element vertex " ++ (⟨natChars m⟩ : String)) = (m : Int) := by
  unfold stepVC
  rw [if_pos (startsWithStr_element m), vcParse?_element]
  rfl

theorem foldVC_no_elem : ∀ (lines : List String) (v : Int),
    (∀ s ∈ lines, startsWithStr s "element vertex" = false) →
    foldVC v lines = v := by
  intro lines
  induction lines with
  | nil => intro v _; rfl
  | cons s ls ih =>
    intro v h
    show foldVC (stepVC v s) ls = v
    have hs : stepVC v s = v := by
      unfold stepVC
      rw [h s (List.mem_cons_self s ls)]
      simp
    rw [hs]
    exact ih v (fun t ht => h t (List.mem_cons_of_mem s ht))

theorem foldVC_rewrite (m : Nat) : ∀ (lines : List String) (v : Int),
    (∃ s ∈ lines, startsWithStr s "element vertex" = true) →
    foldVC v (lines.map (rewriteLine ((m : Nat) : Int))) = (m : Int) := by
  intro lines
  induction lines with
  | nil =>
    intro v h
    obtain ⟨s, hs, _⟩ := h
    cases hs
  | cons s ls ih =>
    intro v h
    rw [List.map_cons]
    show foldVC (stepVC v (rewriteLine ((m : Nat) : Int) s))
      (ls.map (rewriteLine ((m : Nat) : Int))) = (m : Int)
    by_cases hsw : startsWithStr s "element vertex" = true
    · rw [rewriteLine_elem m hsw, stepVC_elem m v]
      by_cases hex : ∃ t ∈ ls, startsWithStr t "element vertex" = true
      · exact ih (m : Int) hex
      · apply foldVC_no_elem
        intro u hu
        obtain ⟨t, ht, rfl⟩ := List.mem_map.mp hu
        have htf : startsWithStr t "element vertex" = false := by
          rcases Bool.eq_false_or_eq_true (startsWithStr t "element vertex")
            with htr | hf
          · exact absurd ⟨t, ht, htr⟩ hex
          · exact hf
        rw [rewriteLine_non_elem htf]
        exact htf
    · have hsf : startsWithStr s "element vertex" = false := by
        rcases Bool.eq_false_or_eq_true (startsWithStr s "element vertex")
          with htr | hf
        · exact absurd htr hsw
        · exact hf
      rw [rewriteLine_non_elem hsf]
      have hv : stepVC v s = v := by
        unfold stepVC
        rw [hsf]
        simp
      rw [hv]
      apply ih
      obtain ⟨t, ht, htt⟩ := h
      rcases List.mem_cons.mp ht with rfl | ht'
      · exact absurd htt hsw
      · exact ⟨t, ht', htt⟩

theorem exists_elem_of_foldVC_ne (lines : List String)
    (h : foldVC 0 lines ≠ 0) :
    ∃ s ∈ lines, startsWithStr s "element vertex" = true := by
  by_contra hne
  apply h
  apply foldVC_no_elem
  intro s hs
  rcases Bool.eq_false_or_eq_true (startsWithStr s "element vertex")
    with htr | hf
  · exact absurd ⟨s, hs, htr⟩ hne
  · exact hf

/-! ## `keep_count` arithmetic -/

theorem ratFloor_eq_floor (q : ℚ) : ratFloor q = ⌊q⌋ := by
  rw [Rat.floor_def]
  rfl

theorem pyTrunc_intCast (n : Int) : pyTrunc ((n : ℚ)) = n := by
  unfold pyTrunc
  by_cases h : ((n : ℚ)) < 0
  · rw [if_pos h, ratFloor_eq_floor]
    rw [show -((n : Int) : ℚ) = (((-n : Int)) : ℚ) by push_cast; ring]
    rw [Int.floor_intCast]
    omega
  · rw [if_neg h, ratFloor_eq_floor, Int.floor_intCast]

/-- With `ratio = 1`, `keep_count = vertex_count` for positive counts. -/
theorem keep_count_one {N : Int} (h : 1 ≤ N) :
    max 1 (pyTrunc ((N : ℚ) * 1)) = N := by
  rw [mul_one, pyTrunc_intCast]
  omega

/-- With `ratio < 1` and a positive count, `keep_count ≤ vertex_count`. -/
theorem keep_count_le {N : Int} {r : ℚ} (hN : 1 ≤ N) (hr : r < 1) :
    max 1 (pyTrunc ((N : ℚ) * r)) ≤ N := by
  have htr : pyTrunc ((N : ℚ) * r) ≤ N - 1 := by
    unfold pyTrunc
    by_cases hneg : ((N : ℚ) * r) < 0
    · rw [if_pos hneg, ratFloor_eq_floor]
      have h2 : (0 : ℚ) ≤ -((N : ℚ) * r) := by linarith
      have h3 : (0 : Int) ≤ ⌊-((N : ℚ) * r)⌋ := by
        rw [Int.le_floor]
        exact_mod_cast h2
      omega
    · rw [if_neg hneg, ratFloor_eq_floor]
      have hNpos : (0 : ℚ) < (N : ℚ) := by exact_mod_cast (by omega : (0:Int) < N)
      have hlt : (N : ℚ) * r < (N : ℚ) := by
        calc (N : ℚ) * r < (N : ℚ) * 1 := by
              exact mul_lt_mul_of_pos_left hr hNpos
          _ = (N : ℚ) := mul_one _
      have : ⌊(N : ℚ) * r⌋ < N := by
        rw [Int.floor_lt]
        exact_mod_cast hlt
      omega
  omega

theorem startsWithStr_element_any (X : String) :
    startsWithStr ("element vertex " ++ X) "element vertex" = true := by
  unfold startsWithStr
  rw [String.data_append]
  have h : "element vertex ".data ++ X.data
      = "element vertex".data ++ (' ' :: X.data) := rfl
  rw [h]
  exact startsWithList_append_self _ _

theorem elem_head_e {s : String}
    (h : startsWithStr s "element vertex" = true) :
    ∃ rest, s.data = 'e' :: rest := by
  unfold startsWithStr at h
  cases hd : s.data with
  | nil =>
    rw [hd] at h
    exact absurd h (by decide)
  | cons a as =>
    rw [hd] at h
    have h2 : (a == 'e' && startsWithList as "lement vertex".data) = true := h
    have h3 : a = 'e' := by
      have := (Bool.and_eq_true _ _).mp h2
      exact beq_iff_eq.mp this.1
    exact ⟨as, by rw [h3]⟩

theorem lineB_elem_not_comment {s : String}
    (h : startsWithStr s "element vertex" = true) :
    startsWithList (lineB s) (strBytes "comment") = false := by
  obtain ⟨rest, hd⟩ := elem_head_e h
  unfold lineB strBytes
  rw [hd]
  rfl

theorem parseCommentTL_not_comment {line : List Nat} (md : Metadata)
    (h : startsWithList line (strBytes "comment") = false) :
    parseCommentTL line md = some md := by
  unfold parseCommentTL
  rw [if_neg (fun hh : startsWithList line (strBytes "comment") = true =>
    Bool.false_ne_true (h ▸ hh))]

theorem stepMd_elem {s : String} (md : Metadata)
    (h : startsWithStr s "element vertex" = true) : stepMd md s = md := by
  unfold stepMd
  rw [parseCommentTL_not_comment md (lineB_elem_not_comment h)]
  rfl

/-- `write_ply`'s count rewriting never changes the recognized metadata:
the rewritten header folds to the same metadata dict. -/
theorem foldMd_rewrite (n : Int) : ∀ (pre : List String) (md : Metadata),
    foldMd md (pre.map (rewriteLine n)) = foldMd md pre := by
  intro pre
  induction pre with
  | nil => intro md; rfl
  | cons t ls ih =>
    intro md
    rw [List.map_cons]
    show foldMd (stepMd md (rewriteLine n t)) (ls.map (rewriteLine n))
      = foldMd (stepMd md t) ls
    by_cases hsw : startsWithStr t "element vertex" = true
    · have h1 : rewriteLine n t = "element vertex " ++ (⟨intChars n⟩ : String) := by
        unfold rewriteLine
        rw [if_pos hsw]
      rw [h1, stepMd_elem md (startsWithStr_element_any _),
        stepMd_elem md hsw]
      exact ih md
    · have hsf : startsWithStr t "element vertex" = false := by
        rcases Bool.eq_false_or_eq_true (startsWithStr t "element vertex")
          with htr | hf
        · exact absurd htr hsw
        · exact hf
      rw [rewriteLine_non_elem hsf]
      exact ih (stepMd md t)

theorem startsWithStr_comment_not_elem (c : String) :
    startsWithStr ("comment " ++ c) "element vertex" = false := by
  unfold startsWithStr
  rw [String.data_append]
  rfl

theorem comment_ne_end (c : String) : ("comment " ++ c) ≠ "end_header" := by
  intro h
  have hd := congrArg String.data h
  rw [String.data_append] at hd
  have h1 : ("comment ".data ++ c.data).head? = some 'c' := rfl
  rw [hd] at h1
  have h2 : ('c' : Char) = 'e' := by
    have h3 : ("end_header".data).head? = some 'e' := rfl
    rw [h3] at h1
    injection h1 with h4
    exact h4.symm
  exact absurd h2 (by decide)

theorem insertExtraComment_eq : ∀ (pre : List String) (c : String),
    (∀ s ∈ pre, s ≠ "end_header") →
    insertExtraComment (pre ++ ["end_header"]) c
      = pre ++ [("comment " ++ c), "end_header"] := by
  intro pre
  induction pre with
  | nil =>
    intro c _
    rfl
  | cons s ls ih =>
    intro c h
    rw [List.cons_append]
    show (if s = "end_header" then _ else s :: insertExtraComment (ls ++ ["end_header"]) c) = _
    rw [if_neg (h s (List.mem_cons_self s ls)), ih c
      (fun t ht => h t (List.mem_cons_of_mem s ht))]
    rfl

/-! ## Well-formed files -/

/-- A point-cloud file in the canonical written form of the external file
format: ASCII header lines each terminated by a newline, the last being
`end_header`, followed by the binary body. -/
def wfFile (pre : List String) (body : List Nat) : List Nat :=
  bytesOfLines (pre ++ ["end_header"]) ++ body

/-- The header lines before `end_header` are clean, parseable, and none is
itself `end_header`. -/
def WfHeader (pre : List String) : Prop :=
  ∀ s ∈ pre, cleanLineB s = true ∧ ElemOkB s = true ∧ s ≠ "end_header"

theorem wf_no_newline {pre : List String} (h : WfHeader pre) :
    ∀ s ∈ pre ++ ["end_header"], ∀ c ∈ s.data, c ≠ '\n' := by
  intro s hs
  rcases List.mem_append.mp hs with hs' | hs'
  · exact cleanLineB_no_newline (h s hs').1
  · simp only [List.mem_singleton] at hs'
    subst hs'
    intro c hc
    revert hc
    revert c
    decide

/-- The header scan of `downsample_ply` on a well-formed file. -/
theorem WF_scanDS {pre : List String} (body : List Nat) (h : WfHeader pre) :
    scanDS (wfFile pre body)
      = .done (bytesOfLines (pre ++ ["end_header"])).length
          (pre ++ ["end_header"]) (foldVC 0 pre) := by
  unfold scanDS wfFile
  rw [toLines_bytesOfLines _ body (wf_no_newline h)]
  rw [scanDS_written pre 0 [] 0 (toLines body)
    (fun s hs => ⟨(h s hs).1, (h s hs).2.1, (h s hs).2.2⟩)]
  rw [Nat.zero_add, List.nil_append]

/-- The header scan of `load_ply_binary` on a well-formed file. -/
theorem WF_scanTL {pre : List String} (body : List Nat) (h : WfHeader pre) :
    scanTL (wfFile pre body)
      = .done (bytesOfLines (pre ++ ["end_header"])).length
          (foldMd {} pre) := by
  unfold scanTL wfFile
  rw [toLines_bytesOfLines _ body (wf_no_newline h)]
  rw [scanTL_written pre 0 {} (toLines body)
    (fun s hs => ⟨(h s hs).1, (h s hs).2.2⟩)]
  rw [Nat.zero_add]

theorem WF_drop (pre : List String) (body : List Nat) :
    (wfFile pre body).drop (bytesOfLines (pre ++ ["end_header"])).length
      = body :=
  List.drop_left _ _

/-- `load_ply_binary` on a well-formed file: all body records, and the
folded metadata. -/
theorem WF_load {pre : List String} (body : List Nat) (h : WfHeader pre) :
    PLYLoader.load_ply_binary (some (wfFile pre body))
      = .ok (chunks27 body) (foldMd {} pre) := by
  show (match scanTL (wfFile pre body) with
    | TLScan.hangs => DecodeResult.hangs
    | TLScan.excn => DecodeResult.errored
    | TLScan.done headerEnd md =>
      DecodeResult.ok (chunks27 ((wfFile pre body).drop headerEnd)) md) = _
  rw [WF_scanTL body h]
  show DecodeResult.ok (chunks27 ((wfFile pre body).drop
    (bytesOfLines (pre ++ ["end_header"])).length)) (foldMd {} pre) = _
  rw [WF_drop]

/-- Rewriting the count preserves header well-formedness. -/
theorem WfHeader_rewrite (m : Nat) {pre : List String} (h : WfHeader pre) :
    WfHeader (pre.map (rewriteLine ((m : Nat) : Int))) := by
  intro s' hs'
  obtain ⟨t, ht, rfl⟩ := List.mem_map.mp hs'
  by_cases hsw : startsWithStr t "element vertex" = true
  · rw [rewriteLine_elem m hsw]
    refine ⟨cleanLineB_element m, ?_, element_ne_end m⟩
    unfold ElemOkB
    rw [startsWithStr_element m, vcParse?_element m]
    rfl
  · have hsf : startsWithStr t "element vertex" = false := by
      rcases Bool.eq_false_or_eq_true (startsWithStr t "element vertex")
        with htr | hf
      · exact absurd htr hsw
      · exact hf
    rw [rewriteLine_non_elem hsf]
    exact h t ht

/-- `downsample_ply` (render_addon) after a successful header scan. -/
theorem render_downsample_done {file : List Nat} {r : ℚ} {sample : List Nat}
    {he : Nat} {lines : List String} {vc : Int}
    (hscan : scanDS file = .done he lines vc) :
    RenderAddon.downsample_ply (some file) r sample
      = (if vc = 0 then .errNoVertices else
          (if 1 ≤ r ∨ max 1 (pyTrunc ((vc : ℚ) * r)) = vc then
            DSOut.ok (RenderAddon.write_ply lines vc (readAt file he (vc * 27)))
              true
          else
            DSOut.ok (RenderAddon.write_ply lines
              (max 1 (pyTrunc ((vc : ℚ) * r)))
              ((List.insertionSort (· ≤ ·) sample).map (fun idx =>
                (file.drop (he + idx * 27)).take 27)).flatten) false)) := by
  have h0 : RenderAddon.downsample_ply (some file) r sample
      = (match scanDS file with
        | DSScan.hangs => DSOut.hangs
        | DSScan.excn => DSOut.errExc
        | DSScan.done header_end_pos header_lines vertex_count =>
          if vertex_count = 0 then DSOut.errNoVertices
          else
            if 1 ≤ r ∨ max 1 (pyTrunc ((vertex_count : ℚ) * r)) = vertex_count
            then
              DSOut.ok (RenderAddon.write_ply header_lines vertex_count
                (readAt file header_end_pos (vertex_count * 27))) true
            else
              DSOut.ok (RenderAddon.write_ply header_lines
                (max 1 (pyTrunc ((vertex_count : ℚ) * r)))
                ((List.insertionSort (· ≤ ·) sample).map (fun idx =>
                  (file.drop (header_end_pos + idx * 27)).take 27)).flatten)
                false) := rfl
  rw [h0, hscan]

/-- `downsample_ply` (json_render_addon) after a successful header scan. -/
theorem json_downsample_done {file : List Nat} {r : ℚ} {sample : List Nat}
    {he : Nat} {lines : List String} {vc : Int}
    (hscan : scanDS file = .done he lines vc) :
    JsonRenderAddon.downsample_ply (some file) r sample
      = (if vc = 0 then .errNoVertices else
          (if 1 ≤ r ∨ vc ≤ max 1 (pyTrunc ((vc : ℚ) * r)) then
            DSOut.ok (JsonRenderAddon.write_ply lines vc (file.drop he)) true
          else
            DSOut.ok (JsonRenderAddon.write_ply lines
              (max 1 (pyTrunc ((vc : ℚ) * r)))
              ((List.insertionSort (· ≤ ·) sample).map (fun (idx : Nat) =>
                (file.drop ((he : Int) + (idx : Int)
                  * (Int.fdiv ((file.length : Int) - (he : Int)) vc)).toNat).take
                  (Int.fdiv ((file.length : Int) - (he : Int)) vc).toNat)).flatten)
              false)) := by
  have h0 : JsonRenderAddon.downsample_ply (some file) r sample
      = (match scanDS file with
        | DSScan.hangs => DSOut.hangs
        | DSScan.excn => DSOut.errExc
        | DSScan.done header_end_pos header_lines vertex_count =>
          if vertex_count = 0 then DSOut.errNoVertices
          else
            if 1 ≤ r ∨ vertex_count ≤ max 1 (pyTrunc ((vertex_count : ℚ) * r))
            then
              DSOut.ok (JsonRenderAddon.write_ply header_lines vertex_count
                (file.drop header_end_pos)) true
            else
              DSOut.ok (JsonRenderAddon.write_ply header_lines
                (max 1 (pyTrunc ((vertex_count : ℚ) * r)))
                ((List.insertionSort (· ≤ ·) sample).map (fun (idx : Nat) =>
                  (file.drop ((header_end_pos : Int) + (idx : Int)
                    * (Int.fdiv ((file.length : Int) - (header_end_pos : Int))
                        vertex_count)).toNat).take
                    (Int.fdiv ((file.length : Int) - (header_end_pos : Int))
                      vertex_count).toNat)).flatten)
                false) := rfl
  rw [h0, hscan]

theorem rewriteLine_end (n : Int) : rewriteLine n "end_header" = "end_header" := rfl

theorem map_rewrite_append_end (n : Int) (pre : List String) :
    (pre ++ ["end_header"]).map (rewriteLine n)
      = pre.map (rewriteLine n) ++ ["end_header"] := by
  rw [List.map_append]
  rfl

theorem foldVC_append_singleton (v : Int) (xs : List String) (c : String) :
    foldVC v (xs ++ [c]) = stepVC (foldVC v xs) c := by
  unfold foldVC
  rw [List.foldl_append]
  rfl

theorem stepVC_non_elem {s : String}
    (h : startsWithStr s "element vertex" = false) (v : Int) :
    stepVC v s = v := by
  unfold stepVC
  rw [h]
  simp

theorem ElemOkB_comment (c : String) : ElemOkB ("comment " ++ c) = true := by
  unfold ElemOkB
  rw [startsWithStr_comment_not_elem]
  rfl

/-- **C3.** On a well-formed file, resampling with `ratio = 1.0` takes the
copy path and round-trips: the written file has the same body, re-decodes
to the same vertex count, records, and metadata; every header line is
written verbatim except the `element vertex` lines, which are rewritten
with the count; and the spec-modelled `encode` with an `extra_comment`
inserts it as a comment line immediately before `end_header`, visible in
the re-parsed header. -/
theorem C3_roundtrip_and_encode (pre : List String) (body : List Nat)
    (sample : List Nat) (N : Int)
    (hwf : WfHeader pre)
    (hfold : foldVC 0 pre = N)
    (hN : 1 ≤ N)
    (hbody : (body.length : Int) = 27 * N) :
    (RenderAddon.downsample_ply (some (wfFile pre body)) 1 sample
      = .ok (RenderAddon.write_ply (pre ++ ["end_header"]) N body) true) ∧
    (RenderAddon.write_ply (pre ++ ["end_header"]) N body
      = wfFile (pre.map (rewriteLine N)) body) ∧
    (scanDS (RenderAddon.write_ply (pre ++ ["end_header"]) N body)
      = .done (bytesOfLines ((pre.map (rewriteLine N)) ++ ["end_header"])).length
          ((pre.map (rewriteLine N)) ++ ["end_header"]) N) ∧
    (PLYLoader.load_ply_binary
        (some (RenderAddon.write_ply (pre ++ ["end_header"]) N body))
      = .ok (chunks27 body) (foldMd {} pre)) ∧
    (PLYLoader.load_ply_binary (some (wfFile pre body))
      = .ok (chunks27 body) (foldMd {} pre)) ∧
    (∀ cmt : String, cleanLineB ("comment " ++ cmt) = true →
      scanDS (encode (pre ++ ["end_header"]) N body (some cmt))
        = .done (bytesOfLines ((pre.map (rewriteLine N))
              ++ [("comment " ++ cmt), "end_header"])).length
            ((pre.map (rewriteLine N)) ++ [("comment " ++ cmt), "end_header"])
            N) := by
  have hm : ((N.toNat : Nat) : Int) = N := Int.toNat_of_nonneg (by omega)
  have hNe : N ≠ 0 := by omega
  have hex : ∃ s ∈ pre, startsWithStr s "element vertex" = true :=
    exists_elem_of_foldVC_ne pre (by rw [hfold]; exact hNe)
  have hwf' : WfHeader (pre.map (rewriteLine N)) := by
    rw [← hm]
    exact WfHeader_rewrite N.toNat hwf
  have hfold' : foldVC 0 (pre.map (rewriteLine N)) = N := by
    conv_lhs => rw [← hm]
    rw [foldVC_rewrite N.toNat pre 0 hex, hm]
  have hb : RenderAddon.write_ply (pre ++ ["end_header"]) N body
      = wfFile (pre.map (rewriteLine N)) body := by
    rw [write_ply_eq, map_rewrite_append_end]
    rfl
  have hscan0 : scanDS (wfFile pre body)
      = .done (bytesOfLines (pre ++ ["end_header"])).length
          (pre ++ ["end_header"]) N := by
    rw [WF_scanDS body hwf, hfold]
  have hread : readAt (wfFile pre body)
      (bytesOfLines (pre ++ ["end_header"])).length (N * 27) = body := by
    unfold readAt
    rw [if_neg (by omega : ¬(N * 27 < 0))]
    rw [WF_drop]
    have hlen : (N * 27).toNat = body.length := by omega
    rw [hlen, List.take_length]
  have ha : RenderAddon.downsample_ply (some (wfFile pre body)) 1 sample
      = .ok (RenderAddon.write_ply (pre ++ ["end_header"]) N body) true := by
    rw [render_downsample_done hscan0]
    rw [if_neg hNe, if_pos (Or.inl (le_refl (1 : ℚ))), hread]
  have hc : scanDS (RenderAddon.write_ply (pre ++ ["end_header"]) N body)
      = .done (bytesOfLines ((pre.map (rewriteLine N)) ++ ["end_header"])).length
          ((pre.map (rewriteLine N)) ++ ["end_header"]) N := by
    rw [hb, WF_scanDS body hwf', hfold']
  have hd1 : PLYLoader.load_ply_binary
      (some (RenderAddon.write_ply (pre ++ ["end_header"]) N body))
      = .ok (chunks27 body) (foldMd {} pre) := by
    rw [hb, WF_load body hwf', foldMd_rewrite N pre]
  have hd2 := WF_load body hwf
  refine ⟨ha, hb, hc, hd1, hd2, ?_⟩
  intro cmt hcln
  have hcm_ne : ("comment " ++ cmt) ≠ "end_header" := comment_ne_end cmt
  have hins : insertExtraComment (pre ++ ["end_header"]) cmt
      = pre ++ [("comment " ++ cmt), "end_header"] :=
    insertExtraComment_eq pre cmt (fun s hs => (hwf s hs).2.2)
  have henc : encode (pre ++ ["end_header"]) N body (some cmt)
      = RenderAddon.write_ply (pre ++ [("comment " ++ cmt), "end_header"])
          N body := by
    have h0 : encode (pre ++ ["end_header"]) N body (some cmt)
        = RenderAddon.write_ply (insertExtraComment (pre ++ ["end_header"]) cmt)
            N body := rfl
    rw [h0, hins]
  have hassoc : pre ++ [("comment " ++ cmt), "end_header"]
      = (pre ++ [("comment " ++ cmt)]) ++ ["end_header"] := by
    rw [List.append_assoc]
    rfl
  have hmap2 : ((pre ++ [("comment " ++ cmt)]) ++ ["end_header"]).map
        (rewriteLine N)
      = (pre.map (rewriteLine N) ++ [("comment " ++ cmt)])
          ++ ["end_header"] := by
    rw [map_rewrite_append_end, List.map_append, List.map_cons, List.map_nil,
      rewriteLine_non_elem (startsWithStr_comment_not_elem cmt)]
  have hwf2 : WfHeader (pre.map (rewriteLine N) ++ [("comment " ++ cmt)]) := by
    intro s hs
    rcases List.mem_append.mp hs with hs' | hs'
    · exact hwf' s hs'
    · simp only [List.mem_singleton] at hs'
      subst hs'
      exact ⟨hcln, ElemOkB_comment cmt, hcm_ne⟩
  have hfold2 : foldVC 0 (pre.map (rewriteLine N) ++ [("comment " ++ cmt)])
      = N := by
    rw [foldVC_append_singleton, hfold',
      stepVC_non_elem (startsWithStr_comment_not_elem cmt)]
  rw [henc, hassoc, write_ply_eq, hmap2]
  have hwff : bytesOfLines ((pre.map (rewriteLine N) ++ [("comment " ++ cmt)])
        ++ ["end_header"]) ++ body
      = wfFile (pre.map (rewriteLine N) ++ [("comment " ++ cmt)]) body := rfl
  rw [hwff, WF_scanDS body hwf2, hfold2, List.append_assoc]
  rfl

theorem chunks27_flatten_pieces : ∀ (ps : List (List Nat)),
    (∀ p ∈ ps, p.length = 27) → chunks27 ps.flatten = ps := by
  intro ps
  induction ps with
  | nil => intro _; rfl
  | cons p t ih =>
    intro h
    have hp : p.length = 27 := h p (List.mem_cons_self p t)
    have hlen : 27 ≤ (p ++ t.flatten).length := by
      rw [List.length_append, hp]
      omega
    rw [List.flatten_cons, chunks27_step hlen]
    congr 1
    · rw [← hp, List.take_left]
    · rw [← hp, List.drop_left]
      exact ih (fun q hq => h q (List.mem_cons_of_mem p hq))

theorem wf_drop_add (pre : List String) (body : List Nat) (k : Nat) :
    (wfFile pre body).drop
        ((bytesOfLines (pre ++ ["end_header"])).length + k)
      = body.drop k := by
  have h1 : ((wfFile pre body).drop
        (bytesOfLines (pre ++ ["end_header"])).length).drop k
      = body.drop k := by
    rw [WF_drop]
  rw [← h1, List.drop_drop]

theorem WfHeader_of_all (pre : List String)
    (h : pre.all
        (fun s => cleanLineB s && ElemOkB s && !(s == "end_header")) = true) :
    WfHeader pre := by
  intro s hs
  have h2 := List.all_eq_true.mp h s hs
  simp only [Bool.and_eq_true, Bool.not_eq_true', beq_eq_false_iff_ne] at h2
  exact ⟨h2.1.1, h2.1.2, h2.2⟩

theorem C3_roundtrip_and_encode_witness :
    (RenderAddon.downsample_ply
        (some (wfFile ["ply", "element vertex 1"] (List.replicate 27 0))) 1 []
      = .ok (RenderAddon.write_ply ((["ply", "element vertex 1"])
          ++ ["end_header"]) 1 (List.replicate 27 0)) true) ∧
    (scanDS (encode ((["ply", "element vertex 1"]) ++ ["end_header"]) 1
        (List.replicate 27 0) (some "hi"))
      = .done (bytesOfLines (((["ply", "element vertex 1"]).map (rewriteLine 1))
            ++ [("comment " ++ "hi"), "end_header"])).length
          (((["ply", "element vertex 1"]).map (rewriteLine 1))
            ++ [("comment " ++ "hi"), "end_header"]) 1) := by
  have h := C3_roundtrip_and_encode ["ply", "element vertex 1"]
    (List.replicate 27 0) [] 1 (WfHeader_of_all _ (by decide)) (by decide)
    (by decide) (by decide)
  exact ⟨h.1, h.2.2.2.2.2 "hi" (by decide)⟩

theorem chunks27_getD : ∀ (i : Nat) (l : List Nat), 27 * (i + 1) ≤ l.length →
    (chunks27 l).getD i [] = (l.drop (i * 27)).take 27 := by
  intro i
  induction i with
  | zero =>
    intro l h
    rw [chunks27_step (by omega)]
    show l.take 27 = (l.drop (0 * 27)).take 27
    rw [Nat.zero_mul, List.drop_zero]
  | succ k ih =>
    intro l h
    rw [chunks27_step (by omega)]
    have h1 : (l.take 27 :: chunks27 (l.drop 27)).getD (k + 1) []
        = (chunks27 (l.drop 27)).getD k [] := rfl
    have h2 : 27 * (k + 1) ≤ (l.drop 27).length := by
      rw [List.length_drop]
      omega
    rw [h1, ih (l.drop 27) h2, List.drop_drop]
    congr 2
    omega

theorem sublist_map_getD : ∀ (l : List (List Nat)) (is : List Nat),
    is.Pairwise (· < ·) → (∀ i ∈ is, i < l.length) →
    List.Sublist (is.map (fun i => l.getD i [])) l := by
  intro l
  induction l with
  | nil =>
    intro is _ hb
    cases is with
    | nil => exact List.Sublist.refl []
    | cons i js =>
      have := hb i (List.mem_cons_self i js)
      simp at this
  | cons x t ih =>
    intro is hp hb
    cases is with
    | nil => exact List.nil_sublist (x :: t)
    | cons i js =>
      have shiftAll : ∀ ks : List Nat, ks.Pairwise (· < ·) →
          (∀ j ∈ ks, j < (x :: t).length) → (∀ j ∈ ks, 1 ≤ j) →
          List.Sublist (ks.map (fun j => (x :: t).getD j [])) t := by
        intro ks hkp hkb hk1
        have hsh : ks.map (fun j => (x :: t).getD j [])
            = (ks.map (fun j => j - 1)).map (fun j => t.getD j []) := by
          rw [List.map_map]
          refine List.map_congr_left ?_
          intro j hj
          obtain ⟨k, rfl⟩ : ∃ k, j = k + 1 := ⟨j - 1, by
            have := hk1 j hj
            omega⟩
          rfl
        have hkp' : (ks.map (fun j => j - 1)).Pairwise (· < ·) := by
          rw [List.pairwise_map]
          refine hkp.imp_of_mem ?_
          intro a b ha _ hab
          have := hk1 a ha
          omega
        have hkb' : ∀ j ∈ ks.map (fun j => j - 1), j < t.length := by
          intro j hj
          obtain ⟨j0, hj0, rfl⟩ := List.mem_map.mp hj
          have h1 := hkb j0 hj0
          have h2 := hk1 j0 hj0
          simp only [List.length_cons] at h1
          omega
        rw [hsh]
        exact ih _ hkp' hkb'
      have hij := List.pairwise_cons.mp hp
      by_cases hi : i = 0
      · subst hi
        rw [List.map_cons]
        have hx : (x :: t).getD 0 [] = x := rfl
        rw [hx]
        refine List.Sublist.cons₂ x (shiftAll js hij.2 ?_ ?_)
        · intro j hj
          exact hb j (List.mem_cons_of_mem 0 hj)
        · intro j hj
          have := hij.1 j hj
          omega
      · refine List.Sublist.cons x (shiftAll (i :: js) hp hb ?_)
        intro j hj
        rcases List.mem_cons.mp hj with rfl | hj'
        · omega
        · have := hij.1 j hj'
          omega

/-- **C4.** Resample size law on a well-formed file with declared count
`N ≥ 1` (render_addon `downsample_ply`).  With `0 < r`, the code's
`keep_count = max(1, int(N*r))` equals the spec's `max(1, floor(N*r))`
(Python `int()` truncates, but `N*r ≥ 0` here).  For `r ∈ (0,1]` the
output file re-parses to vertex count `keep_count` and carries exactly
`keep_count` 27-byte records (the sample being any draw of `keep_count`
indices below `N`).  Whenever `r ≥ 1` or `keep_count ≥ N`, the copy path
runs: the output is the original body re-encoded under the rewritten
header, flagged as a full copy. -/
theorem C4_resample_size (pre : List String) (body : List Nat)
    (sample : List Nat) (N : Int) (r : ℚ)
    (hwf : WfHeader pre) (hfold : foldVC 0 pre = N) (hN : 1 ≤ N)
    (hbody : (body.length : Int) = 27 * N)
    (hslen : sample.length = (max 1 (pyTrunc ((N : ℚ) * r))).toNat)
    (hsmem : ∀ i ∈ sample, i < N.toNat) :
    (0 < r →
      max 1 (pyTrunc ((N : ℚ) * r)) = max 1 ⌊(N : ℚ) * r⌋) ∧
    (0 < r → r ≤ 1 →
      ∃ outBody copied,
        RenderAddon.downsample_ply (some (wfFile pre body)) r sample
          = .ok (wfFile
              (pre.map (rewriteLine (max 1 (pyTrunc ((N : ℚ) * r)))))
              outBody) copied ∧
        scanDS (wfFile
            (pre.map (rewriteLine (max 1 (pyTrunc ((N : ℚ) * r))))) outBody)
          = .done (bytesOfLines
                ((pre.map (rewriteLine (max 1 (pyTrunc ((N : ℚ) * r)))))
                  ++ ["end_header"])).length
              ((pre.map (rewriteLine (max 1 (pyTrunc ((N : ℚ) * r)))))
                ++ ["end_header"])
              (max 1 (pyTrunc ((N : ℚ) * r))) ∧
        (chunks27 outBody).length
          = (max 1 (pyTrunc ((N : ℚ) * r))).toNat) ∧
    ((1 ≤ r ∨ N ≤ max 1 (pyTrunc ((N : ℚ) * r))) →
      RenderAddon.downsample_ply (some (wfFile pre body)) r sample
        = .ok (wfFile (pre.map (rewriteLine N)) body) true) := by
  have hNq : (0 : ℚ) < (N : ℚ) := by exact_mod_cast (by omega : (0 : Int) < N)
  have hscan0 : scanDS (wfFile pre body)
      = .done (bytesOfLines (pre ++ ["end_header"])).length
          (pre ++ ["end_header"]) N := by
    rw [WF_scanDS body hwf, hfold]
  have hNe : N ≠ 0 := by omega
  have hex : ∃ s ∈ pre, startsWithStr s "element vertex" = true :=
    exists_elem_of_foldVC_ne pre (by rw [hfold]; exact hNe)
  have hmN : ((N.toNat : Nat) : Int) = N := Int.toNat_of_nonneg (by omega)
  have hwfN : WfHeader (pre.map (rewriteLine N)) := by
    rw [← hmN]
    exact WfHeader_rewrite N.toNat hwf
  have hfoldN : foldVC 0 (pre.map (rewriteLine N)) = N := by
    conv_lhs => rw [← hmN]
    rw [foldVC_rewrite N.toNat pre 0 hex, hmN]
  have hread : readAt (wfFile pre body)
      (bytesOfLines (pre ++ ["end_header"])).length (N * 27) = body := by
    unfold readAt
    rw [if_neg (by omega : ¬(N * 27 < 0))]
    rw [WF_drop]
    have hlen : (N * 27).toNat = body.length := by omega
    rw [hlen, List.take_length]
  have hcopy : (1 ≤ r ∨ max 1 (pyTrunc ((N : ℚ) * r)) = N) →
      RenderAddon.downsample_ply (some (wfFile pre body)) r sample
        = .ok (wfFile (pre.map (rewriteLine N)) body) true := by
    intro hg
    rw [render_downsample_done hscan0, if_neg hNe, if_pos hg, hread,
      write_ply_eq, map_rewrite_append_end]
    rfl
  have hsize : 0 < r →
      max 1 (pyTrunc ((N : ℚ) * r)) = max 1 ⌊(N : ℚ) * r⌋ := by
    intro hr
    have hq : ¬(((N : ℚ) * r) < 0) := by
      push_neg
      positivity
    unfold pyTrunc
    rw [if_neg hq, ratFloor_eq_floor]
  refine ⟨hsize, ?_, ?_⟩
  · intro hr0 hr1
    by_cases hg : 1 ≤ r ∨ max 1 (pyTrunc ((N : ℚ) * r)) = N
    · -- copy path: `keep_count = N` here, so the rewritten count is `N`
      have hKN : max 1 (pyTrunc ((N : ℚ) * r)) = N := by
        rcases hg with hge | hKN
        · have hr : r = 1 := le_antisymm hr1 hge
          rw [hr]
          exact keep_count_one hN
        · exact hKN
      refine ⟨body, true, ?_, ?_, ?_⟩
      · rw [hKN]
        exact hcopy hg
      · rw [hKN, WF_scanDS body hwfN, hfoldN]
      · rw [chunks27_length]
        have hb27 : body.length = 27 * N.toNat := by omega
        rw [hb27, Nat.mul_div_cancel_left N.toNat (by norm_num), hKN]
    · -- sample path
      have hKne : max 1 (pyTrunc ((N : ℚ) * r)) ≠ N := by
        intro h
        exact hg (Or.inr h)
      have hK1 : 1 ≤ max 1 (pyTrunc ((N : ℚ) * r)) := le_max_left _ _
      have hmK : (((max 1 (pyTrunc ((N : ℚ) * r))).toNat : Nat) : Int)
          = max 1 (pyTrunc ((N : ℚ) * r)) := Int.toNat_of_nonneg (by omega)
      have hwfK : WfHeader
          (pre.map (rewriteLine (max 1 (pyTrunc ((N : ℚ) * r))))) := by
        rw [← hmK]
        exact WfHeader_rewrite _ hwf
      have hfoldK : foldVC 0
            (pre.map (rewriteLine (max 1 (pyTrunc ((N : ℚ) * r)))))
          = max 1 (pyTrunc ((N : ℚ) * r)) := by
        conv_lhs => rw [← hmK]
        rw [foldVC_rewrite _ pre 0 hex, hmK]
      have hperm := List.perm_insertionSort (· ≤ ·) sample
      have hmem : ∀ i ∈ List.insertionSort (· ≤ ·) sample, i < N.toNat :=
        fun i hi => hsmem i (hperm.mem_iff.mp hi)
      have hmapR : (List.insertionSort (· ≤ ·) sample).map (fun idx =>
            ((wfFile pre body).drop
              ((bytesOfLines (pre ++ ["end_header"])).length + idx * 27)).take
              27)
          = (List.insertionSort (· ≤ ·) sample).map (fun idx =>
            (body.drop (idx * 27)).take 27) := by
        refine List.map_congr_left ?_
        intro i _
        rw [wf_drop_add]
      have hpieces : ∀ p ∈ (List.insertionSort (· ≤ ·) sample).map (fun idx =>
            (body.drop (idx * 27)).take 27), p.length = 27 := by
        intro p hp
        obtain ⟨i, hi, rfl⟩ := List.mem_map.mp hp
        have hiN : i < N.toNat := hmem i hi
        have hle : 27 ≤ body.length - i * 27 := by omega
        simp only [List.length_take, List.length_drop]
        omega
      refine ⟨((List.insertionSort (· ≤ ·) sample).map (fun idx =>
        (body.drop (idx * 27)).take 27)).flatten, false, ?_, ?_, ?_⟩
      · rw [render_downsample_done hscan0, if_neg hNe, if_neg hg,
          write_ply_eq, map_rewrite_append_end, hmapR]
        rfl
      · rw [WF_scanDS _ hwfK, hfoldK]
      · rw [chunks27_flatten_pieces _ hpieces, List.length_map,
          hperm.length_eq, hslen]
  · intro hg
    rcases hg with hge | hNK
    · exact hcopy (Or.inl hge)
    · by_cases hr : 1 ≤ r
      · exact hcopy (Or.inl hr)
      · have hKN : max 1 (pyTrunc ((N : ℚ) * r)) = N :=
          le_antisymm (keep_count_le hN (lt_of_not_le hr)) hNK
        exact hcopy (Or.inr hKN)

theorem C4_resample_size_witness :
    (0 < (1 : ℚ) / 2 →
      max 1 (pyTrunc ((2 : ℚ) * (1 / 2))) = max 1 ⌊(2 : ℚ) * (1 / 2)⌋) ∧
    (0 < (1 : ℚ) / 2 → (1 : ℚ) / 2 ≤ 1 →
      ∃ outBody copied,
        RenderAddon.downsample_ply
            (some (wfFile ["ply", "element vertex 2"] (List.replicate 54 0)))
            (1 / 2) [0]
          = .ok (wfFile
              (["ply", "element vertex 2"].map
                (rewriteLine (max 1 (pyTrunc ((2 : ℚ) * (1 / 2))))))
              outBody) copied ∧
        scanDS (wfFile
            (["ply", "element vertex 2"].map
              (rewriteLine (max 1 (pyTrunc ((2 : ℚ) * (1 / 2)))))) outBody)
          = .done (List.length (bytesOfLines
                ((["ply", "element vertex 2"].map
                  (rewriteLine (max 1 (pyTrunc ((2 : ℚ) * (1 / 2))))))
                  ++ ["end_header"])))
              ((["ply", "element vertex 2"].map
                (rewriteLine (max 1 (pyTrunc ((2 : ℚ) * (1 / 2))))))
                ++ ["end_header"])
              (max 1 (pyTrunc ((2 : ℚ) * (1 / 2)))) ∧
        (chunks27 outBody).length
          = (max 1 (pyTrunc ((2 : ℚ) * (1 / 2)))).toNat) ∧
    ((1 ≤ (1 : ℚ) / 2 ∨ (2 : Int) ≤ max 1 (pyTrunc ((2 : ℚ) * (1 / 2)))) →
      RenderAddon.downsample_ply
          (some (wfFile ["ply", "element vertex 2"] (List.replicate 54 0)))
          (1 / 2) [0]
        = .ok (wfFile (["ply", "element vertex 2"].map (rewriteLine 2))
            (List.replicate 54 0)) true) :=
  C4_resample_size ["ply", "element vertex 2"] (List.replicate 54 0) [0] 2
    (1 / 2) (WfHeader_of_all _ (by decide)) (by decide) (by decide)
    (by decide)
    (by
      have h1 : (((2 : Int) : ℚ) * (1 / 2)) = ((1 : Int) : ℚ) := by norm_num
      rw [h1, pyTrunc_intCast]
      decide)
    (by decide)

/-- **C5.** Sample-path subset validity (render_addon `downsample_ply`).
On a well-formed file with count `N ≥ 1` and `ratio < 1`, when
`keep_count ≠ N` (so the sample path runs) and `rawSample` is any draw of
distinct indices below `N` (the model of
`random.sample(range(vertex_count), keep_count)`), the code sorts the
indices ascending and writes, in that order, exactly the 27-byte input
record at each selected index: every output record is an input record,
and the output record multiset is a sub-multiset of the input record
multiset. -/
theorem C5_sample_subset (pre : List String) (body : List Nat)
    (sample : List Nat) (N : Int) (r : ℚ)
    (hwf : WfHeader pre) (hfold : foldVC 0 pre = N) (hN : 1 ≤ N)
    (hbody : (body.length : Int) = 27 * N)
    (hr1 : r < 1)
    (hKne : max 1 (pyTrunc ((N : ℚ) * r)) ≠ N)
    (hnd : sample.Nodup)
    (hsmem : ∀ i ∈ sample, i < N.toNat)
    (_hslen : sample.length = (max 1 (pyTrunc ((N : ℚ) * r))).toNat) :
    (RenderAddon.downsample_ply (some (wfFile pre body)) r sample
      = .ok (wfFile (pre.map (rewriteLine (max 1 (pyTrunc ((N : ℚ) * r)))))
          (((List.insertionSort (· ≤ ·) sample).map (fun idx =>
            (body.drop (idx * 27)).take 27)).flatten)) false) ∧
    (List.insertionSort (· ≤ ·) sample).Sorted (· ≤ ·) ∧
    List.Perm (List.insertionSort (· ≤ ·) sample) sample ∧
    (chunks27 (((List.insertionSort (· ≤ ·) sample).map (fun idx =>
        (body.drop (idx * 27)).take 27)).flatten)
      = (List.insertionSort (· ≤ ·) sample).map (fun idx =>
          (body.drop (idx * 27)).take 27)) ∧
    (∀ q ∈ chunks27 (((List.insertionSort (· ≤ ·) sample).map (fun idx =>
        (body.drop (idx * 27)).take 27)).flatten), q ∈ chunks27 body) ∧
    ((chunks27 (((List.insertionSort (· ≤ ·) sample).map (fun idx =>
          (body.drop (idx * 27)).take 27)).flatten) : Multiset (List Nat))
      ≤ (chunks27 body : Multiset (List Nat))) := by
  have hNe : N ≠ 0 := by omega
  have hex : ∃ s ∈ pre, startsWithStr s "element vertex" = true :=
    exists_elem_of_foldVC_ne pre (by rw [hfold]; exact hNe)
  have hscan0 : scanDS (wfFile pre body)
      = .done (bytesOfLines (pre ++ ["end_header"])).length
          (pre ++ ["end_header"]) N := by
    rw [WF_scanDS body hwf, hfold]
  have hguard : ¬(1 ≤ r ∨ max 1 (pyTrunc ((N : ℚ) * r)) = N) := by
    rintro (h | h)
    · exact absurd hr1 (not_lt.mpr h)
    · exact hKne h
  have hperm := List.perm_insertionSort (· ≤ ·) sample
  have hsorted : (List.insertionSort (· ≤ ·) sample).Sorted (· ≤ ·) :=
    List.sorted_insertionSort (· ≤ ·) sample
  have hnd' : (List.insertionSort (· ≤ ·) sample).Nodup :=
    hperm.nodup_iff.mpr hnd
  have hmem : ∀ i ∈ List.insertionSort (· ≤ ·) sample, i < N.toNat :=
    fun i hi => hsmem i (hperm.mem_iff.mp hi)
  have hb27 : body.length = 27 * N.toNat := by omega
  have hmapR : (List.insertionSort (· ≤ ·) sample).map (fun idx =>
        ((wfFile pre body).drop
          ((bytesOfLines (pre ++ ["end_header"])).length + idx * 27)).take 27)
      = (List.insertionSort (· ≤ ·) sample).map (fun idx =>
        (body.drop (idx * 27)).take 27) := by
    refine List.map_congr_left ?_
    intro i _
    rw [wf_drop_add]
  have hpieces : ∀ p ∈ (List.insertionSort (· ≤ ·) sample).map (fun idx =>
        (body.drop (idx * 27)).take 27), p.length = 27 := by
    intro p hp
    obtain ⟨i, hi, rfl⟩ := List.mem_map.mp hp
    have hiN : i < N.toNat := hmem i hi
    simp only [List.length_take, List.length_drop]
    omega
  have hchunks := chunks27_flatten_pieces _ hpieces
  have hlenc : (chunks27 body).length = N.toNat := by
    rw [chunks27_length, hb27, Nat.mul_div_cancel_left N.toNat (by norm_num)]
  have hgetD : (List.insertionSort (· ≤ ·) sample).map (fun idx =>
        (body.drop (idx * 27)).take 27)
      = (List.insertionSort (· ≤ ·) sample).map (fun idx =>
        (chunks27 body).getD idx []) := by
    refine List.map_congr_left ?_
    intro i hi
    have hiN : i < N.toNat := hmem i hi
    exact (chunks27_getD i body (by omega)).symm
  have hlt : (List.insertionSort (· ≤ ·) sample).Pairwise (· < ·) :=
    hsorted.lt_of_le hnd'
  have hsub : List.Sublist ((List.insertionSort (· ≤ ·) sample).map (fun idx =>
        (chunks27 body).getD idx [])) (chunks27 body) := by
    refine sublist_map_getD (chunks27 body) _ hlt ?_
    intro i hi
    rw [hlenc]
    exact hmem i hi
  refine ⟨?_, hsorted, hperm, hchunks, ?_, ?_⟩
  · rw [render_downsample_done hscan0, if_neg hNe, if_neg hguard,
      write_ply_eq, map_rewrite_append_end, hmapR]
    rfl
  · intro q hq
    rw [hchunks, hgetD] at hq
    exact hsub.subset hq
  · rw [hchunks, hgetD]
    exact Multiset.coe_le.mpr hsub.subperm

theorem C5_sample_subset_witness :
    (RenderAddon.downsample_ply
        (some (wfFile ["ply", "element vertex 2"] (List.range 54)))
        (1 / 2) [1]
      = .ok (wfFile
          (["ply", "element vertex 2"].map
            (rewriteLine (max 1 (pyTrunc (((2 : Int) : ℚ) * (1 / 2))))))
          (((List.insertionSort (· ≤ ·) [1]).map (fun idx =>
            ((List.range 54).drop (idx * 27)).take 27)).flatten)) false) ∧
    ((chunks27 (((List.insertionSort (· ≤ ·) [1]).map (fun idx =>
          ((List.range 54).drop (idx * 27)).take 27)).flatten)
        : Multiset (List Nat))
      ≤ (chunks27 (List.range 54) : Multiset (List Nat))) := by
  have hK : pyTrunc (((2 : Int) : ℚ) * (1 / 2)) = 1 := by
    have h1 : (((2 : Int) : ℚ) * (1 / 2)) = ((1 : Int) : ℚ) := by norm_num
    rw [h1, pyTrunc_intCast]
  have h := C5_sample_subset ["ply", "element vertex 2"] (List.range 54) [1] 2
    (1 / 2) (WfHeader_of_all _ (by decide)) (by decide) (by decide)
    (by decide) (by norm_num) (by rw [hK]; decide) (by decide) (by decide)
    (by rw [hK]; decide)
  exact ⟨h.1, h.2.2.2.2.2⟩

/-- **C10.** Refinement equivalence of the two `downsample_ply`
implementations.  For any file whose header scan succeeds and whose
binary body is exactly `vertex_count * 27` bytes, and for the same ratio
and the same random index draw, the json_render_addon version (stride
derived by floor-dividing the body size, copy guard
`keep_count >= vertex_count`, copy path reading the whole rest of the
file) returns exactly the same result as the render_addon version (fixed
27-byte stride, copy guard `keep_count == vertex_count`, copy path
reading `vertex_count * 27` bytes): identical output bytes and equal
success/copied flags. -/
theorem C10_render_json_equiv (file : List Nat) (r : ℚ) (sample : List Nat)
    (he : Nat) (lines : List String) (N : Int)
    (hscan : scanDS file = .done he lines N)
    (hN : 0 ≤ N)
    (hlen : (file.length : Int) = (he : Int) + 27 * N) :
    JsonRenderAddon.downsample_ply (some file) r sample
      = RenderAddon.downsample_ply (some file) r sample ∧
    (JsonRenderAddon.downsample_ply (some file) r sample).success
      = (RenderAddon.downsample_ply (some file) r sample).success := by
  have hmain : JsonRenderAddon.downsample_ply (some file) r sample
      = RenderAddon.downsample_ply (some file) r sample := by
    rw [render_downsample_done hscan, json_downsample_done hscan]
    by_cases hN0 : N = 0
    · rw [if_pos hN0, if_pos hN0]
    · have hN1 : 1 ≤ N := by omega
      have hguard_iff : (1 ≤ r ∨ N ≤ max 1 (pyTrunc ((N : ℚ) * r)))
          ↔ (1 ≤ r ∨ max 1 (pyTrunc ((N : ℚ) * r)) = N) := by
        constructor
        · rintro (h | h)
          · exact Or.inl h
          · by_cases hr : 1 ≤ r
            · exact Or.inl hr
            · exact Or.inr
                (le_antisymm (keep_count_le hN1 (lt_of_not_le hr)) h)
        · rintro (h | h)
          · exact Or.inl h
          · exact Or.inr (le_of_eq h.symm)
      rw [if_neg hN0, if_neg hN0]
      by_cases hg : 1 ≤ r ∨ max 1 (pyTrunc ((N : ℚ) * r)) = N
      · rw [if_pos hg, if_pos (hguard_iff.mpr hg)]
        have hbody : file.drop he = readAt file he (N * 27) := by
          unfold readAt
          rw [if_neg (by omega : ¬(N * 27 < 0))]
          have hle : (N * 27).toNat = (file.drop he).length := by
            rw [List.length_drop]
            omega
          rw [hle, List.take_length]
        rw [json_write_ply_eq, hbody]
      · rw [if_neg hg, if_neg (fun h => hg (hguard_iff.mp h))]
        have hbpv : Int.fdiv ((file.length : Int) - (he : Int)) N = 27 := by
          have h1 : (file.length : Int) - (he : Int) = 27 * N := by omega
          rw [h1, Int.mul_fdiv_cancel _ hN0]
        have hsam : ((List.insertionSort (· ≤ ·) sample).map (fun (idx : Nat) =>
              (file.drop ((he : Int) + (idx : Int)
                * (Int.fdiv ((file.length : Int) - (he : Int)) N)).toNat).take
                (Int.fdiv ((file.length : Int) - (he : Int)) N).toNat))
            = ((List.insertionSort (· ≤ ·) sample).map (fun idx =>
              (file.drop (he + idx * 27)).take 27)) := by
          refine List.map_congr_left ?_
          intro i _
          rw [hbpv]
          have hA : ((he : Int) + (i : Nat) * (27 : Int)).toNat
              = he + i * 27 := by omega
          rw [hA]
          rfl
        rw [json_write_ply_eq, hsam]
  exact ⟨hmain, by rw [hmain]⟩

theorem C10_render_json_equiv_witness :
    JsonRenderAddon.downsample_ply
        (some (wfFile ["ply", "element vertex 1"] (List.replicate 27 0))) 1 []
      = RenderAddon.downsample_ply
        (some (wfFile ["ply", "element vertex 1"] (List.replicate 27 0))) 1 []
    ∧ (JsonRenderAddon.downsample_ply
        (some (wfFile ["ply", "element vertex 1"] (List.replicate 27 0)))
        1 []).success
      = (RenderAddon.downsample_ply
        (some (wfFile ["ply", "element vertex 1"] (List.replicate 27 0)))
        1 []).success :=
  C10_render_json_equiv
    (wfFile ["ply", "element vertex 1"] (List.replicate 27 0)) 1 [] 32
    ["ply", "element vertex 1", "end_header"] 1 (by decide) (by decide)
    (by decide)

end Shiiba

